import Mathlib

/-!
# Verification of the lasertag version selection core

A shallow embedding of the repository's two source files:

* `version.rs` — the `Version` tokenizer (`Version::from`), the pattern
  matcher (`Version::is_same_pattern`), the `Display` round-trip and the
  derived/manual `Ord` implementations (`DigitStr`, `VersionPart`,
  `Version`).
* `main.rs` — the tag selection pipeline: paginated tag listing
  (`list_all_tags`), filtering, stable sorting and maximum selection
  (`get_latest_similar_tag`), and the error taxonomy (`TagError`).

Rust strings are modelled as lists of bytes (`List Nat`), since all of the
operations of the source (chunking by ASCII-digit-ness, `str` comparison and
equality, `trim_start_matches('0')`) are byte-level operations on the UTF-8
representation.
-/

namespace Lasertag

/-- `u8::is_ascii_digit`: the byte is one of `b'0'..=b'9'` (48–57). -/
def isAsciiDigit (b : Nat) : Bool := 48 ≤ b && b ≤ 57

/-- Helper loop for `chunkBy`: processes the chunk currently headed by `a`
followed by the remaining input, returning the current chunk and the list of
later chunks. -/
def chunkByLoop (p : α → α → Bool) (a : α) : List α → List α × List (List α)
  | [] => ([a], [])
  | b :: l =>
    let r := chunkByLoop p b l
    if p a b then (a :: r.1, r.2) else ([a], r.1 :: r.2)

/-- Embedding of Rust `slice::chunk_by`: splits a list into maximal runs,
starting a new run exactly at each adjacent pair `(a, b)` with `p a b = false`. -/
def chunkBy (p : α → α → Bool) : List α → List (List α)
  | [] => []
  | a :: l => (chunkByLoop p a l).1 :: (chunkByLoop p a l).2

theorem chunkByLoop_fst_cons (p : α → α → Bool) (a : α) (l : List α) :
    ∃ t, (chunkByLoop p a l).1 = a :: t := by
  cases l with
  | nil => exact ⟨[], rfl⟩
  | cons b l =>
    simp only [chunkByLoop]
    cases hp : p a b with
    | true =>
      exact ⟨(chunkByLoop p b l).1, by simp⟩
    | false =>
      exact ⟨[], by simp⟩

theorem chunkByLoop_join (p : α → α → Bool) (a : α) (l : List α) :
    (chunkByLoop p a l).1 ++ (chunkByLoop p a l).2.flatten = a :: l := by
  induction l generalizing a with
  | nil => rfl
  | cons b l ih =>
    simp only [chunkByLoop]
    cases hp : p a b with
    | true => simpa using ih b
    | false => simpa using ih b

/-- Concatenating the chunks of `chunkBy` restores the original list. -/
theorem chunkBy_join (p : α → α → Bool) (l : List α) :
    (chunkBy p l).flatten = l := by
  cases l with
  | nil => rfl
  | cons a l => simpa using chunkByLoop_join p a l

theorem chunkByLoop_ne_nil (p : α → α → Bool) (a : α) (l : List α) :
    (chunkByLoop p a l).1 ≠ [] ∧ ∀ c ∈ (chunkByLoop p a l).2, c ≠ [] := by
  induction l generalizing a with
  | nil => exact ⟨by simp [chunkByLoop], by simp [chunkByLoop]⟩
  | cons b l ih =>
    simp only [chunkByLoop]
    by_cases hp : p a b = true
    · simp only [if_pos hp]
      exact ⟨by simp, by simpa using (ih b).2⟩
    · simp only [if_neg hp]
      refine ⟨by simp, ?_⟩
      intro c hc
      rcases List.mem_cons.mp hc with rfl | hc
      · exact (ih b).1
      · exact (ih b).2 c hc

/-- Every chunk produced by `chunkBy` is non-empty. -/
theorem chunkBy_ne_nil (p : α → α → Bool) (l : List α) :
    ∀ c ∈ chunkBy p l, c ≠ [] := by
  cases l with
  | nil => simp [chunkBy]
  | cons a l =>
    intro c hc
    rcases List.mem_cons.mp hc with rfl | hc
    · exact (chunkByLoop_ne_nil p a l).1
    · exact (chunkByLoop_ne_nil p a l).2 c hc

theorem chunkByLoop_const (f : α → Bool) (a : α) (l : List α) :
    (∀ x ∈ (chunkByLoop (fun x y => f x == f y) a l).1, f x = f a) ∧
      ∀ c ∈ (chunkByLoop (fun x y => f x == f y) a l).2,
        ∃ b t, c = b :: t ∧ ∀ x ∈ c, f x = f b := by
  induction l generalizing a with
  | nil =>
    refine ⟨?_, by simp [chunkByLoop]⟩
    intro x hx
    simp only [chunkByLoop, List.mem_singleton] at hx
    simp [hx]
  | cons b l ih =>
    simp only [chunkByLoop]
    by_cases hp : (f a == f b) = true
    · simp only [if_pos hp]
      refine ⟨?_, (ih b).2⟩
      intro x hx
      rcases List.mem_cons.mp hx with rfl | hx
      · rfl
      · exact ((ih b).1 x hx).trans (beq_iff_eq.mp hp).symm
    · simp only [if_neg hp]
      refine ⟨by simp, ?_⟩
      intro c hc
      rcases List.mem_cons.mp hc with rfl | hc
      · obtain ⟨t, ht⟩ := chunkByLoop_fst_cons (fun x y => f x == f y) b l
        exact ⟨b, t, ht, (ih b).1⟩
      · exact (ih b).2 c hc

/-- Every element of a chunk has the same `f`-value as the chunk's head, when
chunking by equality of `f`-values. -/
theorem chunkBy_const (f : α → Bool) [Inhabited α] (l : List α) :
    ∀ c ∈ chunkBy (fun x y => f x == f y) l, ∀ x ∈ c, f x = f (c.headD default) := by
  intro c hc x hx
  cases l with
  | nil => simp [chunkBy] at hc
  | cons a l =>
    rcases List.mem_cons.mp hc with rfl | hc
    · obtain ⟨t, ht⟩ := chunkByLoop_fst_cons (fun x y => f x == f y) a l
      rw [ht] at hx ⊢
      rw [ht] at hc
      have h1 := (chunkByLoop_const f a l).1
      rw [ht] at h1
      exact (h1 x hx).trans (h1 a (by simp)).symm
    · obtain ⟨b, t, hbt, hall⟩ := (chunkByLoop_const f a l).2 c hc
      subst hbt
      exact (hall x hx).trans (hall b (by simp)).symm

theorem chunkByLoop_chain (f : α → Bool) [Inhabited α] (a : α) (l : List α) :
    List.Chain' (fun c d => f (c.headD default) ≠ f (d.headD default))
      ((chunkByLoop (fun x y => f x == f y) a l).1 ::
        (chunkByLoop (fun x y => f x == f y) a l).2) := by
  induction l generalizing a with
  | nil => simp [chunkByLoop]
  | cons b l ih =>
    simp only [chunkByLoop]
    obtain ⟨t, ht⟩ := chunkByLoop_fst_cons (fun x y => f x == f y) b l
    by_cases hp : (f a == f b) = true
    · simp only [if_pos hp]
      have hc := ih b
      cases hrest : (chunkByLoop (fun x y => f x == f y) b l).2 with
      | nil => simp
      | cons d ds =>
        rw [hrest] at hc
        refine List.Chain'.cons ?_ (List.chain'_cons.mp hc).2
        have hlink := (List.chain'_cons.mp hc).1
        rw [ht] at hlink
        simpa [beq_iff_eq.mp hp] using hlink
    · simp only [if_neg hp]
      refine List.Chain'.cons ?_ (ih b)
      rw [ht]
      simpa using fun h => hp (beq_iff_eq.mpr h)

/-- Adjacent chunks have different `f`-values at their heads, when chunking by
equality of `f`-values. -/
theorem chunkBy_chain (f : α → Bool) [Inhabited α] (l : List α) :
    List.Chain' (fun c d => f (c.headD default) ≠ f (d.headD default))
      (chunkBy (fun x y => f x == f y) l) := by
  cases l with
  | nil => simp [chunkBy]
  | cons a l => exact chunkByLoop_chain f a l

/-! ## The `Version` data model (`version.rs`) -/

/-- `VersionPart` from `version.rs`: `Num(DigitStr)` or `Str(&str)`, each
carrying the bytes of its substring of the source string. -/
inductive VersionPart where
  | Num : List Nat → VersionPart
  | Str : List Nat → VersionPart
deriving DecidableEq, Repr

/-- `Version`: an ordered sequence of parts (`Box<[VersionPart]>`). -/
abbrev Version := List VersionPart

/-- The closure passed to `chunk_by` in `Version::from`:
`a.is_ascii_digit() == b.is_ascii_digit()`. -/
def sameDigitness (a b : Nat) : Bool := isAsciiDigit a == isAsciiDigit b

/-- The per-chunk conversion inside `Version::from`: a chunk whose first byte
is an ASCII digit becomes `Num`, otherwise `Str`. -/
def partOfChunk (chunk : List Nat) : VersionPart :=
  if isAsciiDigit (chunk.headD 0) then .Num chunk else .Str chunk

/-- `Version::from`: chunk the byte string by digit-ness and tag each chunk. -/
def Version.fromText (text : List Nat) : Version :=
  (chunkBy sameDigitness text).map partOfChunk

/-- The bytes carried by a part (what its `Display` impl writes). -/
def VersionPart.text : VersionPart → List Nat
  | .Num s => s
  | .Str s => s

/-- `Display for Version`: concatenate the display of every part. -/
def Version.display (v : Version) : List Nat := (v.map VersionPart.text).flatten

theorem text_partOfChunk (c : List Nat) : (partOfChunk c).text = c := by
  unfold partOfChunk
  split <;> rfl

/-- Round-trip: displaying `Version::from(text)` reproduces `text` exactly. -/
theorem display_fromText (text : List Nat) :
    (Version.fromText text).display = text := by
  unfold Version.fromText Version.display
  rw [List.map_map]
  have : (VersionPart.text ∘ partOfChunk) = id := funext fun c => text_partOfChunk c
  rw [this, List.map_id]
  exact chunkBy_join sameDigitness text

/-! ## The pattern matcher (`Version::is_same_pattern`) -/

/-- `Version::is_same_pattern`: walk both part sequences simultaneously;
two `Num` parts always match, two `Str` parts match when their bytes are
equal, anything else (including one sequence ending early) fails. -/
def Version.is_same_pattern : Version → Version → Bool
  | [], [] => true
  | .Num _ :: a, .Num _ :: b => is_same_pattern a b
  | .Str s :: a, .Str t :: b => if s = t then is_same_pattern a b else false
  | _, _ => false

/-! ## The comparators (`Ord` impls in `version.rs`) -/

/-- Lexicographic list comparison, as in Rust's derived slice/`Box<[T]>`
`Ord`: compare position by position, a strict prefix is `lt`. -/
def listCmp (cmp : α → α → Ordering) : List α → List α → Ordering
  | [], [] => .eq
  | [], _ :: _ => .lt
  | _ :: _, [] => .gt
  | a :: as, b :: bs =>
    match cmp a b with
    | .eq => listCmp cmp as bs
    | o => o

/-- Rust `str`/byte-slice comparison: lexicographic over bytes. -/
def bytesCmp : List Nat → List Nat → Ordering := listCmp compare

/-- `trim_start_matches('0')`: drop leading `b'0'` (48) bytes. -/
def trimZeros (s : List Nat) : List Nat := s.dropWhile (· == 48)

/-- `Ord for DigitStr`: strip leading zeros from both sides; if the stripped
strings have equal length compare them as text, otherwise compare lengths. -/
def digitStrCmp (a b : List Nat) : Ordering :=
  let a' := trimZeros a
  let b' := trimZeros b
  if a'.length = b'.length then bytesCmp a' b' else compare a'.length b'.length

/-- Derived `Ord for VersionPart`: `Num` before `Str`, payloads compared with
their own `Ord` when the variants agree. -/
def versionPartCmp : VersionPart → VersionPart → Ordering
  | .Num a, .Num b => digitStrCmp a b
  | .Num _, .Str _ => .lt
  | .Str _, .Num _ => .gt
  | .Str a, .Str b => bytesCmp a b

/-- Derived `Ord for Version`: lexicographic over the part sequences. -/
def versionCmp : Version → Version → Ordering := listCmp versionPartCmp

open Batteries in
instance listCmp_orientedCmp (cmp : α → α → Ordering) [inst : OrientedCmp cmp] :
    OrientedCmp (listCmp cmp) where
  symm x y := by
    induction x generalizing y with
    | nil => cases y <;> rfl
    | cons a as ih =>
      cases y with
      | nil => rfl
      | cons b bs =>
        simp only [listCmp]
        rw [← inst.symm a b]
        cases cmp a b with
        | eq => simpa using ih bs
        | lt => rfl
        | gt => rfl

open Batteries in
theorem listCmp_le_trans (cmp : α → α → Ordering) [inst : TransCmp cmp] :
    ∀ x y z : List α, listCmp cmp x y ≠ .gt → listCmp cmp y z ≠ .gt →
      listCmp cmp x z ≠ .gt := by
  intro x
  induction x with
  | nil =>
    intro y z _ _
    cases z with
    | nil => simp [listCmp]
    | cons c cs => simp [listCmp]
  | cons a as ih =>
    intro y z h1 h2
    cases y with
    | nil => simp [listCmp] at h1
    | cons b bs =>
      cases z with
      | nil => simp [listCmp] at h2
      | cons c cs =>
        simp only [listCmp] at h1 h2 ⊢
        cases hab : cmp a b with
        | lt =>
          cases hbc : cmp b c with
          | lt => simp [TransCmp.lt_trans hab hbc]
          | eq => simp [(inst.cmp_congr_right hbc).symm.trans hab]
          | gt => simp [hbc] at h2
        | gt => simp [hab] at h1
        | eq =>
          cases hbc : cmp b c with
          | lt => simp [(inst.cmp_congr_left hab).trans hbc]
          | gt => simp [hbc] at h2
          | eq =>
            have hac : cmp a c = .eq := (inst.cmp_congr_left hab).trans hbc
            simp only [hab] at h1
            simp only [hbc] at h2
            simp only [hac]
            exact ih bs cs h1 h2

open Batteries in
instance listCmp_transCmp (cmp : α → α → Ordering) [TransCmp cmp] :
    TransCmp (listCmp cmp) where
  le_trans h1 h2 := listCmp_le_trans cmp _ _ _ h1 h2

open Batteries in
instance bytesCmp_orientedCmp : OrientedCmp bytesCmp :=
  inferInstanceAs (OrientedCmp (listCmp compare))

open Batteries in
instance bytesCmp_transCmp : TransCmp bytesCmp :=
  inferInstanceAs (TransCmp (listCmp compare))

open Batteries in
theorem digitStrCmp_eq_compareLex :
    digitStrCmp = compareLex (compareOn fun s => (trimZeros s).length)
      (Ordering.byKey trimZeros bytesCmp) := by
  funext a b
  show (if (trimZeros a).length = (trimZeros b).length
      then bytesCmp (trimZeros a) (trimZeros b)
      else compare (trimZeros a).length (trimZeros b).length) =
    (compare (trimZeros a).length (trimZeros b).length).then
      (bytesCmp (trimZeros a) (trimZeros b))
  by_cases h : (trimZeros a).length = (trimZeros b).length
  · rw [if_pos h, h, show compare (trimZeros b).length (trimZeros b).length = .eq from
      Nat.compare_eq_eq.mpr rfl]
    rfl
  · rw [if_neg h]
    cases hc : compare (trimZeros a).length (trimZeros b).length with
    | lt => rfl
    | eq => exact absurd (Nat.compare_eq_eq.mp hc) h
    | gt => rfl

open Batteries in
instance digitStrCmp_transCmp : TransCmp digitStrCmp := by
  rw [digitStrCmp_eq_compareLex]
  infer_instance

open Batteries in
instance versionPartCmp_orientedCmp : OrientedCmp versionPartCmp where
  symm x y := by
    cases x <;> cases y <;> simp only [versionPartCmp] <;> first
      | rfl
      | exact OrientedCmp.symm ..

open Batteries in
instance versionPartCmp_transCmp : TransCmp versionPartCmp where
  le_trans {x y z} h1 h2 := by
    cases x with
    | Num a =>
      cases y with
      | Num b =>
        cases z with
        | Num c =>
          simp only [versionPartCmp] at h1 h2 ⊢
          exact TransCmp.le_trans h1 h2
        | Str c => simp [versionPartCmp]
      | Str b =>
        cases z with
        | Num c =>
          simp only [versionPartCmp] at h2
          exact absurd rfl h2
        | Str c => simp [versionPartCmp]
    | Str a =>
      cases y with
      | Num b =>
        simp only [versionPartCmp] at h1
        exact absurd rfl h1
      | Str b =>
        cases z with
        | Num c =>
          simp only [versionPartCmp] at h2
          exact absurd rfl h2
        | Str c =>
          simp only [versionPartCmp] at h1 h2 ⊢
          exact TransCmp.le_trans h1 h2

open Batteries in
instance versionCmp_transCmp : TransCmp versionCmp :=
  listCmp_transCmp versionPartCmp

/-! ## Stable sorting (`versions.sort()`) -/

/-- The boolean "less or equal" order on `Version` induced by `versionCmp`,
used to model Rust's stable `slice::sort`. -/
def vle (a b : Version) : Bool := versionCmp a b != .gt

/-- Stable insertion of `a` into `l`: `a` goes immediately before the first
element `b` with `le a b`. -/
def orderedInsertB (le : α → α → Bool) (a : α) : List α → List α
  | [] => [a]
  | b :: l => if le a b then a :: b :: l else b :: orderedInsertB le a l

/-- Stable insertion sort, inserting from the right so that of two equal
elements the earlier one stays first — the output any stable sort (such as
Rust's `slice::sort`) produces. -/
def insertionSortB (le : α → α → Bool) : List α → List α
  | [] => []
  | a :: l => orderedInsertB le a (insertionSortB le l)

theorem orderedInsertB_ne_nil (le : α → α → Bool) (a : α) (l : List α) :
    orderedInsertB le a l ≠ [] := by
  cases l with
  | nil => simp [orderedInsertB]
  | cons b l =>
    simp only [orderedInsertB]
    by_cases h : le a b = true
    · simp [if_pos h]
    · simp [if_neg h]

theorem mem_orderedInsertB (le : α → α → Bool) (a x : α) (l : List α) :
    x ∈ orderedInsertB le a l ↔ x = a ∨ x ∈ l := by
  induction l with
  | nil => simp [orderedInsertB]
  | cons b l ih =>
    simp only [orderedInsertB]
    by_cases h : le a b = true
    · simp only [if_pos h]
      simp
    · simp only [if_neg h]
      simp only [List.mem_cons, ih]
      tauto

theorem mem_insertionSortB (le : α → α → Bool) (x : α) (l : List α) :
    x ∈ insertionSortB le l ↔ x ∈ l := by
  induction l with
  | nil => simp [insertionSortB]
  | cons a l ih => simp [insertionSortB, mem_orderedInsertB, ih]

/-- The "last maximum" of a list: a later element displaces the current
maximum whenever the current maximum is `le` it, so ties go to the later
element. -/
def lastMaxB (le : α → α → Bool) : List α → Option α
  | [] => none
  | a :: l =>
    match lastMaxB le l with
    | none => some a
    | some m => if le a m then some m else some a

theorem lastMaxB_cons_none (le : α → α → Bool) {a : α} {l : List α}
    (h : lastMaxB le l = none) : lastMaxB le (a :: l) = some a := by
  simp [lastMaxB, h]

theorem lastMaxB_cons_some (le : α → α → Bool) {a m : α} {l : List α}
    (h : lastMaxB le l = some m) :
    lastMaxB le (a :: l) = if le a m then some m else some a := by
  simp [lastMaxB, h]

theorem lastMaxB_mem (le : α → α → Bool) (l : List α) (m : α)
    (h : lastMaxB le l = some m) : m ∈ l := by
  induction l with
  | nil => simp [lastMaxB] at h
  | cons a l ih =>
    cases h' : lastMaxB le l with
    | none =>
      rw [lastMaxB_cons_none le h'] at h
      obtain rfl := Option.some_inj.mp h
      exact List.mem_cons_self a l
    | some m' =>
      rw [lastMaxB_cons_some le h'] at h
      by_cases ham : le a m' = true
      · rw [if_pos ham] at h
        obtain rfl := Option.some_inj.mp h
        exact List.mem_cons_of_mem a (ih h')
      · rw [if_neg ham] at h
        obtain rfl := Option.some_inj.mp h
        exact List.mem_cons_self a l

theorem lastMaxB_ge (le : α → α → Bool)
    (htotal : ∀ a b, le a b = true ∨ le b a = true)
    (htrans : ∀ a b c, le a b = true → le b c = true → le a c = true)
    (l : List α) (m : α) (h : lastMaxB le l = some m) :
    ∀ y ∈ l, le y m = true := by
  have hrefl : ∀ x, le x x = true := fun x => (htotal x x).elim id id
  induction l generalizing m with
  | nil => simp [lastMaxB] at h
  | cons a l ih =>
    intro y hy
    cases h' : lastMaxB le l with
    | none =>
      rw [lastMaxB_cons_none le h'] at h
      obtain rfl := Option.some_inj.mp h
      have hl : l = [] := by
        cases l with
        | nil => rfl
        | cons b l' =>
          exfalso
          cases hml : lastMaxB le l' with
          | none => rw [lastMaxB_cons_none le hml] at h'; cases h'
          | some m' =>
            rw [lastMaxB_cons_some le hml] at h'
            by_cases hbm : le b m' = true
            · rw [if_pos hbm] at h'; cases h'
            · rw [if_neg hbm] at h'; cases h'
      subst hl
      rcases List.mem_cons.mp hy with rfl | hy
      · exact hrefl y
      · simp at hy
    | some m' =>
      rw [lastMaxB_cons_some le h'] at h
      by_cases ham : le a m' = true
      · rw [if_pos ham] at h
        obtain rfl := Option.some_inj.mp h
        rcases List.mem_cons.mp hy with rfl | hy
        · exact ham
        · exact ih _ h' y hy
      · rw [if_neg ham] at h
        obtain rfl := Option.some_inj.mp h
        rcases List.mem_cons.mp hy with rfl | hy
        · exact hrefl y
        · have h1 : le y m' = true := ih _ h' y hy
          have h3 := (htotal _ m').resolve_left ham
          exact htrans y m' _ h1 h3

theorem orderedInsertB_getLast_of_le (le : α → α → Bool) (a m : α)
    (l : List α) (hm : l.getLast? = some m) (ham : le a m = true) :
    (orderedInsertB le a l).getLast? = some m := by
  induction l with
  | nil => simp at hm
  | cons b l ih =>
    simp only [orderedInsertB]
    by_cases h : le a b = true
    · rw [if_pos h]
      rw [List.getLast?_cons_cons]
      exact hm
    · rw [if_neg h]
      cases l with
      | nil =>
        simp at hm
        exact absurd (hm ▸ ham) (by simp [h])
      | cons c l' =>
        rw [List.getLast?_cons_cons] at hm
        have hrec := ih hm
        obtain ⟨d, ds, hX⟩ := List.exists_cons_of_ne_nil
          (orderedInsertB_ne_nil le a (c :: l'))
        rw [hX, List.getLast?_cons_cons, ← hX]
        exact hrec

theorem orderedInsertB_of_all_not (le : α → α → Bool) (a : α) (l : List α)
    (h : ∀ y ∈ l, le a y = false) : orderedInsertB le a l = l ++ [a] := by
  induction l with
  | nil => rfl
  | cons b l ih =>
    simp only [orderedInsertB]
    rw [if_neg (by simp [h b (List.mem_cons_self b l)])]
    rw [ih fun y hy => h y (List.mem_cons_of_mem b hy)]
    rfl

/-- The last element of a stable sort is the "last maximum" of the input:
the maximum, with ties resolved to the latest occurrence. -/
theorem insertionSortB_getLast (le : α → α → Bool)
    (htotal : ∀ a b, le a b = true ∨ le b a = true)
    (htrans : ∀ a b c, le a b = true → le b c = true → le a c = true)
    (l : List α) :
    (insertionSortB le l).getLast? = lastMaxB le l := by
  induction l with
  | nil => rfl
  | cons a l ih =>
    simp only [insertionSortB]
    cases h' : lastMaxB le l with
    | none =>
      rw [h'] at ih
      rw [List.getLast?_eq_none_iff.mp ih]
      rw [lastMaxB_cons_none le h']
      rfl
    | some m =>
      rw [h'] at ih
      rw [lastMaxB_cons_some le h']
      by_cases ham : le a m = true
      · rw [orderedInsertB_getLast_of_le le a m _ ih ham, if_pos ham]
      · have hall : ∀ y ∈ insertionSortB le l, le a y = false := by
          intro y hy
          cases hya : le a y with
          | false => rfl
          | true =>
            have hym : le y m = true :=
              lastMaxB_ge le htotal htrans l m h' y
                ((mem_insertionSortB le y l).mp hy)
            exact absurd (htrans a y m hya hym) ham
        rw [orderedInsertB_of_all_not le a _ hall, List.getLast?_concat,
          if_neg ham]

theorem vle_iff (a b : Version) : vle a b = true ↔ versionCmp a b ≠ .gt := by
  unfold vle
  cases versionCmp a b <;> decide

theorem vle_total : ∀ a b : Version, vle a b = true ∨ vle b a = true := by
  intro a b
  by_cases h : versionCmp a b = .gt
  · right
    have hba : versionCmp b a = .lt := Batteries.OrientedCmp.cmp_eq_gt.mp h
    exact (vle_iff b a).mpr (by simp [hba])
  · left
    exact (vle_iff a b).mpr h

theorem vle_trans : ∀ a b c : Version,
    vle a b = true → vle b c = true → vle a c = true := by
  intro a b c h1 h2
  exact (vle_iff a c).mpr
    (Batteries.TransCmp.le_trans ((vle_iff a b).mp h1) ((vle_iff b c).mp h2))

/-! ## The tag selector (`main.rs`) -/

/-- The error taxonomy of `main.rs`; the registry error payload (an
`OciDistributionError`) is opaque to the core, so it is abstracted to an
arbitrary type `ε` carried verbatim. -/
inductive TagError (ε : Type) where
  | ImageMissingTag : TagError ε
  | NoSimilarTag : TagError ε
  | Registry : ε → TagError ε
deriving DecidableEq

/-- The body of `get_latest_similar_tag` once the full tag list is in hand:
tokenize every tag, keep the versions sharing the reference tag's pattern,
stable-sort them, and return the display string of the last one;
`NoSimilarTag` if nothing survived the filter. -/
def selectCore (ε : Type) (refTag : List Nat) (all_tags : List (List Nat)) :
    Except (TagError ε) (List Nat) :=
  let start := Version.fromText refTag
  let versions := (all_tags.map Version.fromText).filter
    (fun version => version.is_same_pattern start)
  match (insertionSortB vle versions).getLast? with
  | none => .error .NoSimilarTag
  | some v => .ok v.display

/-- The pagination loop of `list_all_tags`, with the registry client
abstracted to a function from the continuation cursor (`all_tags.last()`,
i.e. the last tag collected so far, or none on the first request) to one
page of tags or a transport error. `fuel` bounds the number of loop
iterations; `none` means the loop did not terminate within `fuel` rounds. -/
def listAllTags (reg : Option (List Nat) → Except ε (List (List Nat))) :
    Nat → List (List Nat) → Option (Except ε (List (List Nat)))
  | 0, _ => none
  | fuel + 1, all_tags =>
    match reg all_tags.getLast? with
    | .error e => some (.error e)
    | .ok [] => some (.ok all_tags)
    | .ok tags => listAllTags reg fuel (all_tags ++ tags)

/-- `get_latest_similar_tag`: fail with `ImageMissingTag` when the reference
has no tag, otherwise run the pagination loop and select from its result,
wrapping a registry error as `TagError.Registry`. -/
def get_latest_similar_tag (refTag : Option (List Nat))
    (reg : Option (List Nat) → Except ε (List (List Nat))) (fuel : Nat) :
    Option (Except (TagError ε) (List Nat)) :=
  match refTag with
  | none => some (.error .ImageMissingTag)
  | some t =>
    match listAllTags reg fuel [] with
    | none => none
    | some (.error e) => some (.error (.Registry e))
    | some (.ok all_tags) => some (selectCore ε t all_tags)

/-- A registry collaborator `reg` serves the page sequence `ps` when the
accumulated tag list is `acc`: each page is returned for the cursor equal to
the last accumulated tag, every served page is non-empty, and after all of
`ps` the next request yields the empty page that ends the listing. -/
def servesFrom (reg : Option (List Nat) → Except ε (List (List Nat)))
    (acc : List (List Nat)) : List (List (List Nat)) → Prop
  | [] => reg acc.getLast? = .ok []
  | p :: ps => reg acc.getLast? = .ok p ∧ p ≠ [] ∧ servesFrom reg (acc ++ p) ps

/-! ## String literals as byte lists -/

/-- The UTF-8 encoding of one Unicode scalar value. -/
def utf8EncodeChar (c : Char) : List Nat :=
  let n := c.toNat
  if n < 128 then [n]
  else if n < 2048 then [192 + n / 64, 128 + n % 64]
  else if n < 65536 then [224 + n / 4096, 128 + n / 64 % 64, 128 + n % 64]
  else [240 + n / 262144, 128 + n / 4096 % 64, 128 + n / 64 % 64, 128 + n % 64]

/-- The UTF-8 bytes of a string — what Rust's `str::as_bytes` exposes. -/
def strBytes (s : String) : List Nat := (s.data.map utf8EncodeChar).flatten

/-- Tokenize a string literal through its UTF-8 bytes. -/
def tokenize (s : String) : Version := Version.fromText (strBytes s)

/-! ## Claim C5: tokenizer invariants -/

/-- The kind tag of a part: `true` for a digit run (`Num`). -/
def VersionPart.isNum : VersionPart → Bool
  | .Num _ => true
  | .Str _ => false

theorem isNum_partOfChunk (c : List Nat) :
    (partOfChunk c).isNum = isAsciiDigit (c.headD 0) := by
  unfold partOfChunk
  cases hh : isAsciiDigit (c.headD 0) with
  | true => rfl
  | false => rfl

theorem fromText_alternates (text : List Nat) :
    List.Chain' (fun p q => p.isNum ≠ q.isNum) (Version.fromText text) := by
  unfold Version.fromText
  rw [List.chain'_map]
  have h := chunkBy_chain isAsciiDigit text
  refine h.imp ?_
  intro c d hcd
  simpa [isNum_partOfChunk] using hcd

theorem fromText_part_facts (text : List Nat) :
    ∀ part ∈ Version.fromText text, part.text ≠ [] ∧
      (part.isNum = true → ∀ b ∈ part.text, isAsciiDigit b = true) ∧
      (part.isNum = false → ∀ b ∈ part.text, isAsciiDigit b = false) := by
  intro part hp
  unfold Version.fromText at hp
  obtain ⟨c, hc, rfl⟩ := List.mem_map.mp hp
  have hne := chunkBy_ne_nil sameDigitness text c hc
  have hconst := chunkBy_const isAsciiDigit text c hc
  refine ⟨by simpa [text_partOfChunk] using hne, ?_, ?_⟩
  · intro hnum b hb
    rw [text_partOfChunk] at hb
    rw [isNum_partOfChunk] at hnum
    exact (hconst b hb).trans hnum
  · intro hnum b hb
    rw [text_partOfChunk] at hb
    rw [isNum_partOfChunk] at hnum
    exact (hconst b hb).trans hnum

/-- C5. Tokenizer invariants: for every input string (modelled by its byte
list), the parts of `Version::from` strictly alternate in kind; every part is
non-empty; digit-run parts consist only of ASCII digits and literal-run parts
contain none; displaying the `Version` reproduces the input exactly; and the
empty string yields the empty part sequence. -/
theorem c5_tokenizer_invariants (text : List Nat) :
    List.Chain' (fun p q => p.isNum ≠ q.isNum) (Version.fromText text) ∧
    (∀ part ∈ Version.fromText text, part.text ≠ [] ∧
      (part.isNum = true → ∀ b ∈ part.text, isAsciiDigit b = true) ∧
      (part.isNum = false → ∀ b ∈ part.text, isAsciiDigit b = false)) ∧
    (Version.fromText text).display = text ∧
    Version.fromText [] = [] :=
  ⟨fromText_alternates text, fromText_part_facts text, display_fromText text, rfl⟩

/-- Witness for C5 at a concrete input. -/
theorem c5_witness :
    (Version.fromText (strBytes "v15.010-rc.1")).display = strBytes "v15.010-rc.1" :=
  (c5_tokenizer_invariants (strBytes "v15.010-rc.1")).2.2.1

/-! ## Claim C7: the pattern matcher -/

/-- Positional compatibility of two parts, as the spec words it: same kind,
and literal-run parts byte-for-byte identical (digit-run payloads are
irrelevant). -/
def partPatternMatch (p q : VersionPart) : Prop :=
  p.isNum = q.isNum ∧ ∀ s t, p = .Str s → q = .Str t → s = t

theorem is_same_pattern_iff_forall₂ (v w : Version) :
    Version.is_same_pattern v w = true ↔ List.Forall₂ partPatternMatch v w := by
  induction v generalizing w with
  | nil =>
    cases w with
    | nil => simp [Version.is_same_pattern, partPatternMatch]
    | cons q w => simp [Version.is_same_pattern]
  | cons p v ih =>
    cases w with
    | nil =>
      cases p <;> simp [Version.is_same_pattern]
    | cons q w =>
      cases p with
      | Num a =>
        cases q with
        | Num b =>
          rw [show Version.is_same_pattern (.Num a :: v) (.Num b :: w) =
            Version.is_same_pattern v w from rfl]
          rw [ih w, List.forall₂_cons]
          constructor
          · intro h
            exact ⟨⟨rfl, by intro s t hs; cases hs⟩, h⟩
          · intro h
            exact h.2
        | Str b =>
          constructor
          · intro h; cases h
          · intro h
            rcases List.forall₂_cons.mp h with ⟨⟨hk, _⟩, _⟩
            cases hk
      | Str a =>
        cases q with
        | Num b =>
          constructor
          · intro h; cases h
          · intro h
            rcases List.forall₂_cons.mp h with ⟨⟨hk, _⟩, _⟩
            cases hk
        | Str b =>
          rw [show Version.is_same_pattern (.Str a :: v) (.Str b :: w) =
            if a = b then Version.is_same_pattern v w else false from rfl]
          by_cases hab : a = b
          · subst hab
            rw [if_pos rfl, ih w, List.forall₂_cons]
            constructor
            · intro h
              exact ⟨⟨rfl, by intro s t hs ht; cases hs; cases ht; rfl⟩, h⟩
            · intro h
              exact h.2
          · rw [if_neg hab]
            constructor
            · intro h; cases h
            · intro h
              rcases List.forall₂_cons.mp h with ⟨⟨_, hst⟩, _⟩
              exact absurd (hst a b rfl rfl) hab

/-- C7. `is_same_pattern` on two tokenized strings holds exactly when the two
part sequences have the same length, same kinds position by position, and
byte-identical literal parts position by position; together with the spec's
concrete positive and negative examples. -/
theorem c7_pattern_matcher :
    (∀ a b : List Nat,
      (Version.fromText a).is_same_pattern (Version.fromText b) = true ↔
        ((Version.fromText a).length = (Version.fromText b).length ∧
          ∀ (i : Nat) (h1 : i < (Version.fromText a).length)
            (h2 : i < (Version.fromText b).length),
            partPatternMatch ((Version.fromText a).get ⟨i, h1⟩)
              ((Version.fromText b).get ⟨i, h2⟩))) ∧
    (tokenize "v1.0.10").is_same_pattern (tokenize "v3.44.247") = true ∧
    (tokenize "2.1").is_same_pattern (tokenize "10.0") = true ∧
    (tokenize "1.0.0-rc.1").is_same_pattern (tokenize "2.0.0-rc.3") = true ∧
    (tokenize "latest").is_same_pattern (tokenize "2025-11-12T13-14-15Z") = false ∧
    (tokenize ".34").is_same_pattern (tokenize "0.34") = false ∧
    (tokenize "1.1.0").is_same_pattern (tokenize "v1.1.0") = false ∧
    (tokenize "2.0.0-alpha.1").is_same_pattern (tokenize "2.0.0-beta.1") = false := by
  refine ⟨?_, by decide, by decide, by decide, by decide, by decide, by decide, by decide⟩
  intro a b
  rw [is_same_pattern_iff_forall₂, List.forall₂_iff_get]

/-! ## Claim C3: comparator behaviour -/

/-- The claim's description of the digit-run rule: strip leading zeros, then
compare by length of what remains, then lexicographically on the remaining
digits. -/
def digitRunCmpSpec (a b : List Nat) : Ordering :=
  (compare (trimZeros a).length (trimZeros b).length).then
    (bytesCmp (trimZeros a) (trimZeros b))

/-- The claim's per-position part rule: digit runs by `digitRunCmpSpec`,
literal runs as ordinary byte text, and a digit run strictly less than a
literal run regardless of content. -/
def partCmpSpec : VersionPart → VersionPart → Ordering
  | .Num a, .Num b => digitRunCmpSpec a b
  | .Num _, .Str _ => .lt
  | .Str _, .Num _ => .gt
  | .Str a, .Str b => bytesCmp a b

/-- The claim's comparator: lexicographic over the part sequences with
`partCmpSpec` at each position (strict prefix is Less). -/
def compareSpec : Version → Version → Ordering := listCmp partCmpSpec

theorem digitStrCmp_eq_spec (a b : List Nat) :
    digitStrCmp a b = digitRunCmpSpec a b := by
  rw [digitStrCmp_eq_compareLex]
  rfl

theorem versionPartCmp_eq_spec (p q : VersionPart) :
    versionPartCmp p q = partCmpSpec p q := by
  cases p <;> cases q <;>
    simp only [versionPartCmp, partCmpSpec, digitStrCmp_eq_spec]

theorem listCmp_congr (c1 c2 : α → α → Ordering)
    (h : ∀ a b, c1 a b = c2 a b) :
    ∀ x y : List α, listCmp c1 x y = listCmp c2 x y := by
  intro x
  induction x with
  | nil => intro y; cases y <;> rfl
  | cons a as ih =>
    intro y
    cases y with
    | nil => rfl
    | cons b bs =>
      simp only [listCmp, h a b]
      cases c2 a b <;> simp [ih bs]

theorem versionCmp_strict_prefix (v w : Version) (hw : w ≠ []) :
    versionCmp v (v ++ w) = .lt := by
  induction v with
  | nil =>
    cases w with
    | nil => exact absurd rfl hw
    | cons q w => rfl
  | cons p v ih =>
    show listCmp versionPartCmp (p :: v) (p :: (v ++ w)) = .lt
    have hrefl : versionPartCmp p p = .eq := Batteries.OrientedCmp.cmp_refl
    simp only [listCmp, hrefl]
    exact ih

/-- C3. The comparator is exactly the claim's lexicographic rule: equal to
`compareSpec` on all pairs, a strict prefix (including the empty sequence)
compares Less, and the six concrete example comparisons hold. -/
theorem c3_comparator :
    (∀ a b : Version, versionCmp a b = compareSpec a b) ∧
    (∀ v w : Version, w ≠ [] → versionCmp v (v ++ w) = .lt) ∧
    versionCmp (tokenize "v1.99.99") (tokenize "v2.0.0") = .lt ∧
    versionCmp (tokenize "v1.050") (tokenize "v1.50") = .eq ∧
    versionCmp (tokenize "v1.00") (tokenize "v1.0-beta.1") = .lt ∧
    versionCmp (tokenize "2.0.0") (tokenize "v1.0.0") = .lt ∧
    versionCmp (tokenize "00042") (tokenize "42") = .eq ∧
    versionCmp (tokenize "00123") (tokenize "12300") = .lt := by
  refine ⟨listCmp_congr versionPartCmp partCmpSpec versionPartCmp_eq_spec,
    versionCmp_strict_prefix, ?_, ?_, ?_, ?_, ?_, ?_⟩ <;> decide

/-- Witness for C3's strict-prefix conjunct at a concrete input. -/
theorem c3_witness :
    versionCmp (tokenize "v1.0") (tokenize "v1.0" ++ [VersionPart.Str [120]]) =
      .lt :=
  c3_comparator.2.1 (tokenize "v1.0") [VersionPart.Str [120]] (by decide)

/-- Witness for C7 at a concrete pair of strings. -/
theorem c7_witness :
    (tokenize "2.1").is_same_pattern (tokenize "10.0") = true ∧
    (tokenize "2.1").length = (tokenize "10.0").length :=
  ⟨c7_pattern_matcher.2.1,
    (((c7_pattern_matcher.1 (strBytes "2.1") (strBytes "10.0")).mp
      c7_pattern_matcher.2.1)).1⟩

/-! ## Claim C4: order laws (corrected) -/

/-- C4 counterexample: `compare` can return `Equal` on two `Version`s that are
not equal values — `v1.050` and `v1.50` compare Equal yet tokenize to distinct
part sequences, so `Equal` is not consistent with the type's equality. -/
theorem c4_counterexample :
    versionCmp (tokenize "v1.050") (tokenize "v1.50") = .eq ∧
      tokenize "v1.050" ≠ tokenize "v1.50" := by
  constructor
  · decide
  · decide

/-- C4 amended: `versionCmp` is reflexive, antisymmetric (`Less` one way
exactly when `Greater` the other) and transitive on the non-`Greater`
relation, so sorting and maximum selection are well-defined across all
`Version`s — but `Equal` is coarser than equality (see the counterexample). -/
theorem c4_total_order_laws :
    (∀ a : Version, versionCmp a a = .eq) ∧
    (∀ a b : Version, versionCmp a b = .lt ↔ versionCmp b a = .gt) ∧
    (∀ a b c : Version, versionCmp a b ≠ .gt → versionCmp b c ≠ .gt →
      versionCmp a c ≠ .gt) := by
  refine ⟨?_, ?_, ?_⟩
  · intro a
    exact Batteries.OrientedCmp.cmp_refl
  · intro a b
    exact Batteries.OrientedCmp.cmp_eq_gt.symm
  · intro a b c h1 h2
    exact Batteries.TransCmp.le_trans h1 h2

/-- Witness for C4's transitivity at concrete inputs. -/
theorem c4_witness :
    versionCmp (tokenize "v1.0") (tokenize "v1.2") ≠ .gt :=
  c4_total_order_laws.2.2 (tokenize "v1.0") (tokenize "v1.1") (tokenize "v1.2")
    (by decide) (by decide)

/-! ## Claims C1 and C10: maximum selection -/

instance exceptDecEq {ε α : Type} [DecidableEq ε] [DecidableEq α] :
    DecidableEq (Except ε α)
  | .error a, .error b =>
    if h : a = b then .isTrue (by rw [h]) else
      .isFalse (by intro e; cases e; exact h rfl)
  | .error _, .ok _ => .isFalse (by intro e; cases e)
  | .ok _, .error _ => .isFalse (by intro e; cases e)
  | .ok a, .ok b =>
    if h : a = b then .isTrue (by rw [h]) else
      .isFalse (by intro e; cases e; exact h rfl)

theorem lastMaxB_eq_none_iff (le : α → α → Bool) (l : List α) :
    lastMaxB le l = none ↔ l = [] := by
  cases l with
  | nil => simp [lastMaxB]
  | cons a l =>
    simp only [List.cons_ne_nil, iff_false]
    cases h' : lastMaxB le l with
    | none => rw [lastMaxB_cons_none le h']; simp
    | some m =>
      rw [lastMaxB_cons_some le h']
      by_cases ham : le a m = true
      · rw [if_pos ham]; simp
      · rw [if_neg ham]; simp

theorem lastMaxB_isSome (le : α → α → Bool) (l : List α) (h : l ≠ []) :
    ∃ m, lastMaxB le l = some m := by
  cases hm : lastMaxB le l with
  | none => exact absurd ((lastMaxB_eq_none_iff le l).mp hm) h
  | some m => exact ⟨m, rfl⟩

/-- The local `versions` list of `get_latest_similar_tag`: all tags
tokenized, keeping only those matching the reference tag's pattern. -/
def matchingVersions (t : List Nat) (tags : List (List Nat)) : List Version :=
  (tags.map Version.fromText).filter
    (fun version => version.is_same_pattern (Version.fromText t))

theorem selectCore_eq (ε : Type) (t : List Nat) (tags : List (List Nat)) :
    selectCore ε t tags =
      match (insertionSortB vle (matchingVersions t tags)).getLast? with
      | none => .error .NoSimilarTag
      | some v => .ok v.display := rfl

theorem matchingVersions_eq_map (t : List Nat) (tags : List (List Nat)) :
    matchingVersions t tags =
      (tags.filter fun u =>
        (Version.fromText u).is_same_pattern (Version.fromText t)).map
        Version.fromText := by
  unfold matchingVersions
  exact List.filter_map Version.fromText tags

theorem selectCore_ok_of_getLast (ε : Type) (t : List Nat)
    (tags : List (List Nat)) (v : Version)
    (h : (insertionSortB vle (matchingVersions t tags)).getLast? = some v) :
    selectCore ε t tags = .ok v.display := by
  rw [selectCore_eq, h]

/-- C1. Whenever some retrieved tag matches the reference tag's pattern, the
selection succeeds and returns a string that is byte-identical to one of the
registry's tags, matches the pattern, and is a maximum under the comparator
among exactly the pattern-matching tags; and on the spec's concrete example
(`v1.2.0` against `{v1.2.0, v1.3.0, v1.9.9, latest, sha-abc123}`) it returns
`v1.9.9`. -/
theorem c1_selector_max :
    (∀ (ε : Type) (t : List Nat) (tags : List (List Nat)),
      (tags.filter fun u =>
        (Version.fromText u).is_same_pattern (Version.fromText t)) ≠ [] →
      ∃ s, selectCore ε t tags = .ok s ∧ s ∈ tags ∧
        (Version.fromText s).is_same_pattern (Version.fromText t) = true ∧
        ∀ u ∈ tags,
          (Version.fromText u).is_same_pattern (Version.fromText t) = true →
          versionCmp (Version.fromText u) (Version.fromText s) ≠ .gt) ∧
    selectCore Unit (strBytes "v1.2.0")
      [strBytes "v1.2.0", strBytes "v1.3.0", strBytes "v1.9.9",
        strBytes "latest", strBytes "sha-abc123"] = .ok (strBytes "v1.9.9") := by
  constructor
  · intro ε t tags hne
    have hvers := matchingVersions_eq_map t tags
    have hvne : matchingVersions t tags ≠ [] := by
      rw [hvers]
      simpa using hne
    obtain ⟨v, hv⟩ := lastMaxB_isSome vle (matchingVersions t tags) hvne
    have hsort : (insertionSortB vle (matchingVersions t tags)).getLast? =
        some v := by
      rw [insertionSortB_getLast vle vle_total vle_trans]
      exact hv
    have hmem : v ∈ matchingVersions t tags := lastMaxB_mem vle _ v hv
    rw [hvers] at hmem
    obtain ⟨u, hu, rfl⟩ := List.mem_map.mp hmem
    have hu' := List.mem_filter.mp hu
    refine ⟨(Version.fromText u).display, selectCore_ok_of_getLast ε t tags _ hsort,
      ?_, ?_, ?_⟩
    · rw [display_fromText]
      exact hu'.1
    · rw [display_fromText]
      exact hu'.2
    · intro w hw hwp
      rw [display_fromText]
      have hwmem : Version.fromText w ∈ matchingVersions t tags := by
        rw [hvers]
        exact List.mem_map.mpr ⟨w, List.mem_filter.mpr ⟨hw, hwp⟩, rfl⟩
      have := lastMaxB_ge vle vle_total vle_trans _ _ hv (Version.fromText w) hwmem
      exact (vle_iff _ _).mp this
  · decide

/-- Witness for C1's general conjunct at the spec's concrete example. -/
theorem c1_witness :
    ∃ s, selectCore Unit (strBytes "v1.2.0")
      [strBytes "v1.2.0", strBytes "v1.3.0", strBytes "v1.9.9",
        strBytes "latest", strBytes "sha-abc123"] = .ok s ∧
      s ∈ [strBytes "v1.2.0", strBytes "v1.3.0", strBytes "v1.9.9",
        strBytes "latest", strBytes "sha-abc123"] ∧
      (Version.fromText s).is_same_pattern
        (Version.fromText (strBytes "v1.2.0")) = true ∧
      ∀ u ∈ [strBytes "v1.2.0", strBytes "v1.3.0", strBytes "v1.9.9",
        strBytes "latest", strBytes "sha-abc123"],
        (Version.fromText u).is_same_pattern
          (Version.fromText (strBytes "v1.2.0")) = true →
        versionCmp (Version.fromText u) (Version.fromText s) ≠ .gt :=
  c1_selector_max.1 Unit (strBytes "v1.2.0")
    [strBytes "v1.2.0", strBytes "v1.3.0", strBytes "v1.9.9",
      strBytes "latest", strBytes "sha-abc123"] (by decide)

theorem vle_both_iff_eq (a b : Version) :
    (vle a b = true ∧ vle b a = true) ↔ versionCmp a b = .eq := by
  rw [vle_iff, vle_iff]
  constructor
  · rintro ⟨h1, h2⟩
    cases h : versionCmp a b with
    | lt => exact absurd (Batteries.OrientedCmp.cmp_eq_gt.mpr h) h2
    | eq => rfl
    | gt => exact absurd h h1
  · intro h
    refine ⟨by simp [h], ?_⟩
    have hba : versionCmp b a = .eq := Batteries.OrientedCmp.cmp_eq_eq_symm.mp h
    simp [hba]

/-- Among the elements tied (in both directions of `le`) with the last
maximum, the last maximum is the last one in list order. -/
theorem lastMaxB_filter (le : α → α → Bool)
    (htotal : ∀ a b, le a b = true ∨ le b a = true)
    (htrans : ∀ a b c, le a b = true → le b c = true → le a c = true)
    (l : List α) (m : α) (h : lastMaxB le l = some m) :
    (l.filter fun y => le y m && le m y).getLast? = some m := by
  have hrefl : ∀ x, le x x = true := fun x => (htotal x x).elim id id
  induction l generalizing m with
  | nil => simp [lastMaxB] at h
  | cons a l ih =>
    cases h' : lastMaxB le l with
    | none =>
      obtain rfl := (lastMaxB_eq_none_iff le l).mp h'
      rw [lastMaxB_cons_none le h'] at h
      obtain rfl := Option.some_inj.mp h
      simp [List.filter_cons, hrefl a]
    | some m' =>
      rw [lastMaxB_cons_some le h'] at h
      by_cases ham : le a m' = true
      · rw [if_pos ham] at h
        obtain rfl := Option.some_inj.mp h
        have hrec := ih _ h'
        simp only [List.filter_cons]
        by_cases hqa : (le a m' && le m' a) = true
        · rw [if_pos hqa]
          have hne : l.filter (fun y => le y m' && le m' y) ≠ [] := by
            intro e
            rw [e] at hrec
            cases hrec
          obtain ⟨d, ds, hX⟩ := List.exists_cons_of_ne_nil hne
          rw [hX, List.getLast?_cons_cons, ← hX]
          exact hrec
        · rw [if_neg hqa]
          exact hrec
      · rw [if_neg ham] at h
        obtain rfl := Option.some_inj.mp h
        simp only [List.filter_cons]
        rw [if_pos (by simp [hrefl a])]
        have hnil : l.filter (fun y => le y a && le a y) = [] := by
          rw [List.filter_eq_nil_iff]
          intro y hy
          have h1 : le y m' = true := lastMaxB_ge le htotal htrans l m' h' y hy
          cases hay : le a y with
          | false => simp [hay]
          | true => exact absurd (htrans a y m' hay h1) ham
        rw [hnil]
        rfl

/-- C10. When several pattern-matching tags tie for the maximum, the returned
tag is the tied tag that appears last in the order the registry returned the
tags: it is the last element of the registry-ordered list of tags comparing
`Equal` to the result. (Determinism for fixed inputs is immediate because
`selectCore` is a function.) -/
theorem c10_tie_last :
    ∀ (ε : Type) (t : List Nat) (tags : List (List Nat)),
      (tags.filter fun u =>
        (Version.fromText u).is_same_pattern (Version.fromText t)) ≠ [] →
      ∃ s, selectCore ε t tags = .ok s ∧
        ((tags.filter fun u =>
            (Version.fromText u).is_same_pattern (Version.fromText t)).filter
          fun u => decide (versionCmp (Version.fromText u)
            (Version.fromText s) = .eq)).getLast? = some s := by
  intro ε t tags hne
  have hvers := matchingVersions_eq_map t tags
  have hvne : matchingVersions t tags ≠ [] := by
    rw [hvers]
    simpa using hne
  obtain ⟨v, hv⟩ := lastMaxB_isSome vle (matchingVersions t tags) hvne
  have hsort : (insertionSortB vle (matchingVersions t tags)).getLast? =
      some v := by
    rw [insertionSortB_getLast vle vle_total vle_trans]
    exact hv
  have hmem : v ∈ matchingVersions t tags := lastMaxB_mem vle _ v hv
  rw [hvers] at hmem
  obtain ⟨u, hu, rfl⟩ := List.mem_map.mp hmem
  refine ⟨(Version.fromText u).display,
    selectCore_ok_of_getLast ε t tags _ hsort, ?_⟩
  have hfil := lastMaxB_filter vle vle_total vle_trans _ _ hv
  rw [hvers, List.filter_map] at hfil
  rw [List.getLast?_map] at hfil
  set ms := tags.filter fun w =>
    (Version.fromText w).is_same_pattern (Version.fromText t) with hms
  rcases hlast : (ms.filter
      ((fun y => vle y (Version.fromText u) && vle (Version.fromText u) y) ∘
        Version.fromText)).getLast? with _ | u1
  · rw [hlast] at hfil
    cases hfil
  · rw [hlast] at hfil
    have hu1 : Version.fromText u1 = Version.fromText u :=
      Option.some_inj.mp hfil
    have hdisp : (Version.fromText u).display = u1 := by
      rw [← hu1, display_fromText]
    rw [hdisp]
    rw [← hlast]
    congr 1
    apply List.filter_congr
    intro w _
    rw [Bool.eq_iff_iff]
    simp only [Function.comp, decide_eq_true_iff]
    rw [Bool.and_eq_true]
    rw [hu1]
    exact (vle_both_iff_eq (Version.fromText w) (Version.fromText u)).symm

/-- Witness for C10 at a concrete tie: `v1.050` and `v1.50` compare Equal and
the later one, `v1.50`, is returned. -/
theorem c10_witness :
    ∃ s, selectCore Unit (strBytes "v1.050")
      [strBytes "v1.050", strBytes "v1.50"] = .ok s ∧
      (([strBytes "v1.050", strBytes "v1.50"].filter fun u =>
          (Version.fromText u).is_same_pattern
            (Version.fromText (strBytes "v1.050"))).filter
        fun u => decide (versionCmp (Version.fromText u)
          (Version.fromText s) = .eq)).getLast? = some s :=
  c10_tie_last Unit (strBytes "v1.050")
    [strBytes "v1.050", strBytes "v1.50"] (by decide)

/-! ## Claim C2: error taxonomy of the selector -/

theorem insertionSortB_eq_nil_iff (le : α → α → Bool) (l : List α) :
    insertionSortB le l = [] ↔ l = [] := by
  cases l with
  | nil => simp [insertionSortB]
  | cons a l =>
    simp only [insertionSortB, List.cons_ne_nil, iff_false]
    exact orderedInsertB_ne_nil le a (insertionSortB le l)

/-- C2. Error behaviour of `get_latest_similar_tag`: it fails with
`ImageMissingTag` exactly when the reference carries no tag; a registry error
from the listing loop is propagated immediately (one failing page request
ends the loop at once, with no retry) and becomes the image's outcome wrapped
as `Registry`; when the listing succeeds, the result is the `NoSimilarTag`
error exactly when no retrieved tag matches the reference's pattern, and a
success otherwise. -/
theorem c2_error_taxonomy :
    (∀ (ε : Type) (reg : Option (List Nat) → Except ε (List (List Nat)))
      (fuel : Nat),
      get_latest_similar_tag none reg fuel = some (.error .ImageMissingTag)) ∧
    (∀ (ε : Type) (t : List Nat)
      (reg : Option (List Nat) → Except ε (List (List Nat))) (fuel : Nat)
      (r : Except (TagError ε) (List Nat)),
      get_latest_similar_tag (some t) reg fuel = some r →
      r ≠ .error .ImageMissingTag) ∧
    (∀ (ε : Type) (reg : Option (List Nat) → Except ε (List (List Nat)))
      (acc : List (List Nat)) (fuel : Nat) (e : ε),
      reg acc.getLast? = .error e →
      listAllTags reg (fuel + 1) acc = some (.error e)) ∧
    (∀ (ε : Type) (t : List Nat)
      (reg : Option (List Nat) → Except ε (List (List Nat))) (fuel : Nat)
      (e : ε),
      listAllTags reg fuel [] = some (.error e) →
      get_latest_similar_tag (some t) reg fuel = some (.error (.Registry e))) ∧
    (∀ (ε : Type) (t : List Nat)
      (reg : Option (List Nat) → Except ε (List (List Nat))) (fuel : Nat)
      (tags : List (List Nat)),
      listAllTags reg fuel [] = some (.ok tags) →
      (get_latest_similar_tag (some t) reg fuel =
          some (.error .NoSimilarTag) ↔
        tags.filter (fun u =>
          (Version.fromText u).is_same_pattern (Version.fromText t)) = []) ∧
      ((tags.filter fun u =>
          (Version.fromText u).is_same_pattern (Version.fromText t)) ≠ [] →
        ∃ s, get_latest_similar_tag (some t) reg fuel = some (.ok s))) := by
  refine ⟨fun ε reg fuel => rfl, ?_, ?_, ?_, ?_⟩
  · intro ε t reg fuel r hr
    unfold get_latest_similar_tag at hr
    cases hl : listAllTags reg fuel [] with
    | none => rw [hl] at hr; cases hr
    | some res =>
      rw [hl] at hr
      cases res with
      | error e =>
        obtain rfl := Option.some_inj.mp hr
        intro e'
        cases e'
      | ok tags =>
        obtain rfl := Option.some_inj.mp hr
        rw [selectCore_eq]
        cases (insertionSortB vle (matchingVersions t tags)).getLast? with
        | none => intro e'; cases e'
        | some v => intro e'; cases e'
  · intro ε reg acc fuel e he
    unfold listAllTags
    rw [he]
  · intro ε t reg fuel e hl
    unfold get_latest_similar_tag
    rw [hl]
  · intro ε t reg fuel tags hl
    have hget : get_latest_similar_tag (some t) reg fuel =
        some (selectCore ε t tags) := by
      unfold get_latest_similar_tag
      rw [hl]
    constructor
    · rw [hget]
      constructor
      · intro h
        obtain h := Option.some_inj.mp h
        rw [selectCore_eq] at h
        cases hgl : (insertionSortB vle (matchingVersions t tags)).getLast? with
        | some v => rw [hgl] at h; cases h
        | none =>
          have hsortnil := List.getLast?_eq_none_iff.mp hgl
          have hmv : matchingVersions t tags = [] :=
            (insertionSortB_eq_nil_iff vle _).mp hsortnil
          rw [matchingVersions_eq_map] at hmv
          simpa using hmv
      · intro h
        have hmv : matchingVersions t tags = [] := by
          rw [matchingVersions_eq_map, h]
          rfl
        rw [selectCore_eq, hmv]
        rfl
    · intro hne
      have hvne : matchingVersions t tags ≠ [] := by
        rw [matchingVersions_eq_map]
        simpa using hne
      obtain ⟨v, hv⟩ := lastMaxB_isSome vle (matchingVersions t tags) hvne
      have hsort : (insertionSortB vle (matchingVersions t tags)).getLast? =
          some v := by
        rw [insertionSortB_getLast vle vle_total vle_trans]
        exact hv
      exact ⟨v.display, by rw [hget, selectCore_ok_of_getLast ε t tags v hsort]⟩

/-- Witness for C2 at a concrete failing registry: the loop stops on the
first error and the selector reports it as `Registry`. -/
theorem c2_witness :
    get_latest_similar_tag (some (strBytes "v1"))
      (fun _ => Except.error 7) 5 = some (.error (.Registry 7)) :=
  c2_error_taxonomy.2.2.2.1 Nat (strBytes "v1") (fun _ => Except.error 7) 5 7
    (c2_error_taxonomy.2.2.1 Nat (fun _ => Except.error 7) [] 4 7 rfl)

/-! ## Claim C8: pagination -/

theorem listAllTags_drain (ε : Type)
    (reg : Option (List Nat) → Except ε (List (List Nat))) :
    ∀ (ps : List (List (List Nat))) (acc : List (List Nat)),
      servesFrom reg acc ps →
      listAllTags reg (ps.length + 1) acc = some (.ok (acc ++ ps.flatten)) := by
  intro ps
  induction ps with
  | nil =>
    intro acc hs
    unfold listAllTags
    rw [show servesFrom reg acc [] = (reg acc.getLast? = .ok []) from rfl] at hs
    rw [hs]
    simp
  | cons p ps ih =>
    intro acc hs
    obtain ⟨h1, hp, hrest⟩ := hs
    show listAllTags reg (ps.length + 1 + 1) acc = _
    unfold listAllTags
    rw [h1]
    cases p with
    | nil => exact absurd rfl hp
    | cons x xs =>
      show listAllTags reg (ps.length + 1) (acc ++ x :: xs) =
        some (.ok (acc ++ ((x :: xs) :: ps).flatten))
      rw [ih (acc ++ x :: xs) hrest]
      simp

/-- C8. For a registry collaborator that serves a sequence of non-empty pages
under the cursor protocol (each request carries the last tag collected so far,
none on the first), the listing loop requests exactly those pages, stops on
the first empty page, and has by then accumulated every tag of every page in
order — all before any filtering, which happens only later in `selectCore`. -/
theorem c8_pagination (ε : Type)
    (reg : Option (List Nat) → Except ε (List (List Nat)))
    (ps : List (List (List Nat))) (hs : servesFrom reg [] ps) :
    listAllTags reg (ps.length + 1) [] = some (.ok ps.flatten) := by
  have := listAllTags_drain ε reg ps [] hs
  simpa using this

/-- A two-page demo registry stub for the C8 witness. -/
def demoPages : List (List (List Nat)) :=
  [[strBytes "a1", strBytes "a2"], [strBytes "a3"]]

/-- A demo registry serving `demoPages` under the cursor protocol. -/
def demoReg : Option (List Nat) → Except Unit (List (List Nat)) := fun cursor =>
  if cursor = none then .ok [strBytes "a1", strBytes "a2"]
  else if cursor = some (strBytes "a2") then .ok [strBytes "a3"]
  else .ok []

/-- Witness for C8: the demo registry is fully drained in order. -/
theorem c8_witness :
    servesFrom demoReg [] demoPages ∧
      listAllTags demoReg (demoPages.length + 1) [] =
        some (.ok demoPages.flatten) := by
  have hs : servesFrom demoReg [] demoPages :=
    ⟨by decide, by decide, by decide, by decide,
      (by decide : demoReg (some (strBytes "a3")) = .ok [])⟩
  exact ⟨hs, c8_pagination Unit demoReg demoPages hs⟩


/-! ## Claim C6: totality of tokenization (UTF-8 model) -/

/-- A UTF-8 continuation byte (`0x80`–`0xBF`). -/
def isUtf8Cont (b : Nat) : Bool := 128 ≤ b && b ≤ 191

/-- Valid second byte of a three-byte sequence (`E0` excludes overlong
encodings, `ED` excludes surrogates). -/
def utf8Cont3 (b c1 : Nat) : Bool :=
  if b = 224 then 160 ≤ c1 && c1 ≤ 191
  else if b = 237 then 128 ≤ c1 && c1 ≤ 159
  else isUtf8Cont c1

/-- Valid second byte of a four-byte sequence (`F0` excludes overlong
encodings, `F4` caps at `U+10FFFF`). -/
def utf8Cont4 (b c1 : Nat) : Bool :=
  if b = 240 then 144 ≤ c1 && c1 ≤ 191
  else if b = 244 then 128 ≤ c1 && c1 ≤ 143
  else isUtf8Cont c1

/-- The UTF-8 validity check performed by `str::from_utf8` on each chunk,
written with the list destructured up to the four-byte case so that every
recursive call is structural: ASCII bytes stand alone, `C2`–`DF` lead one
continuation byte, `E0`–`EF` two, `F0`–`F4` three (with the usual
overlong/surrogate second-byte restrictions), and everything else is
invalid. -/
def validUtf8 : List Nat → Bool
  | [] => true
  | [b] => decide (b < 128)
  | [b, c1] =>
    if b < 128 then validUtf8 [c1]
    else if 194 ≤ b ∧ b ≤ 223 then isUtf8Cont c1
    else false
  | [b, c1, c2] =>
    if b < 128 then validUtf8 [c1, c2]
    else if 194 ≤ b ∧ b ≤ 223 then isUtf8Cont c1 && validUtf8 [c2]
    else if 224 ≤ b ∧ b ≤ 239 then utf8Cont3 b c1 && isUtf8Cont c2
    else false
  | b :: c1 :: c2 :: c3 :: l =>
    if b < 128 then validUtf8 (c1 :: c2 :: c3 :: l)
    else if 194 ≤ b ∧ b ≤ 223 then isUtf8Cont c1 && validUtf8 (c2 :: c3 :: l)
    else if 224 ≤ b ∧ b ≤ 239 then
      utf8Cont3 b c1 && isUtf8Cont c2 && validUtf8 (c3 :: l)
    else if 240 ≤ b ∧ b ≤ 244 then
      utf8Cont4 b c1 && isUtf8Cont c2 && isUtf8Cont c3 && validUtf8 l
    else false


theorem validUtf8_nil : validUtf8 [] = true := rfl

theorem validUtf8_one (b : Nat) : validUtf8 [b] = decide (b < 128) := rfl

theorem validUtf8_cons_ascii {b : Nat} (h : b < 128) (l : List Nat) :
    validUtf8 (b :: l) = validUtf8 l := by
  cases l with
  | nil => simp [validUtf8, h]
  | cons c1 t =>
    cases t with
    | nil => conv_lhs => rw [validUtf8, if_pos h]
    | cons c2 t2 =>
      cases t2 with
      | nil => conv_lhs => rw [validUtf8, if_pos h]
      | cons c3 t3 => conv_lhs => rw [validUtf8, if_pos h]

theorem validUtf8_cons2 {b : Nat} (h : 194 ≤ b ∧ b ≤ 223) :
    (validUtf8 [b] = false) ∧
    ∀ c l, validUtf8 (b :: c :: l) = (isUtf8Cont c && validUtf8 l) := by
  constructor
  · rw [validUtf8_one]
    simp
    omega
  · intro c l
    cases l with
    | nil =>
      conv_lhs => rw [validUtf8, if_neg (by omega), if_pos h]
      rw [validUtf8_nil, Bool.and_true]
    | cons c2 t =>
      cases t with
      | nil => conv_lhs => rw [validUtf8, if_neg (by omega), if_pos h]
      | cons c3 t2 => conv_lhs => rw [validUtf8, if_neg (by omega), if_pos h]

theorem validUtf8_cons3 {b : Nat} (h : 224 ≤ b ∧ b ≤ 239) :
    (validUtf8 [b] = false) ∧ (∀ c, validUtf8 [b, c] = false) ∧
    ∀ c1 c2 l, validUtf8 (b :: c1 :: c2 :: l) =
      (utf8Cont3 b c1 && isUtf8Cont c2 && validUtf8 l) := by
  refine ⟨?_, ?_, ?_⟩
  · rw [validUtf8_one]
    simp
    omega
  · intro c
    conv_lhs => rw [validUtf8, if_neg (by omega), if_neg (by omega)]
  · intro c1 c2 l
    cases l with
    | nil =>
      conv_lhs => rw [validUtf8, if_neg (by omega), if_neg (by omega), if_pos h]
      rw [validUtf8_nil, Bool.and_true]
    | cons c3 t =>
      conv_lhs => rw [validUtf8, if_neg (by omega), if_neg (by omega), if_pos h]

theorem validUtf8_cons4 {b : Nat} (h : 240 ≤ b ∧ b ≤ 244) :
    (validUtf8 [b] = false) ∧ (∀ c, validUtf8 [b, c] = false) ∧
    (∀ c1 c2, validUtf8 [b, c1, c2] = false) ∧
    ∀ c1 c2 c3 l, validUtf8 (b :: c1 :: c2 :: c3 :: l) =
      (utf8Cont4 b c1 && isUtf8Cont c2 && isUtf8Cont c3 && validUtf8 l) := by
  refine ⟨?_, ?_, ?_, ?_⟩
  · rw [validUtf8_one]
    simp
    omega
  · intro c
    conv_lhs => rw [validUtf8, if_neg (by omega), if_neg (by omega)]
  · intro c1 c2
    conv_lhs =>
      rw [validUtf8, if_neg (by omega), if_neg (by omega), if_neg (by omega)]
  · intro c1 c2 c3 l
    conv_lhs =>
      rw [validUtf8, if_neg (by omega), if_neg (by omega), if_neg (by omega),
        if_pos h]

theorem validUtf8_cons_bad {b : Nat} (h1 : 128 ≤ b)
    (h2 : ¬(194 ≤ b ∧ b ≤ 223)) (h3 : ¬(224 ≤ b ∧ b ≤ 239))
    (h4 : ¬(240 ≤ b ∧ b ≤ 244)) (l : List Nat) :
    validUtf8 (b :: l) = false := by
  cases l with
  | nil =>
    rw [validUtf8_one]
    simp
    omega
  | cons c1 t =>
    cases t with
    | nil => conv_lhs => rw [validUtf8, if_neg (by omega), if_neg h2]
    | cons c2 t2 =>
      cases t2 with
      | nil =>
        conv_lhs => rw [validUtf8, if_neg (by omega), if_neg h2, if_neg h3]
      | cons c3 t3 =>
        conv_lhs =>
          rw [validUtf8, if_neg (by omega), if_neg h2, if_neg h3, if_neg h4]

theorem utf8Cont3_cont {b c1 : Nat} (h : utf8Cont3 b c1 = true) :
    isUtf8Cont c1 = true := by
  unfold utf8Cont3 at h
  unfold isUtf8Cont at *
  split at h <;> [skip; split at h] <;> simp at h ⊢ <;> omega

theorem utf8Cont4_cont {b c1 : Nat} (h : utf8Cont4 b c1 = true) :
    isUtf8Cont c1 = true := by
  unfold utf8Cont4 at h
  unfold isUtf8Cont at *
  split at h <;> [skip; split at h] <;> simp at h ⊢ <;> omega

theorem validUtf8_ascii_append (xs ys : List Nat) (h : ∀ b ∈ xs, b < 128) :
    validUtf8 (xs ++ ys) = validUtf8 ys := by
  induction xs with
  | nil => rfl
  | cons b xs ih =>
    rw [List.cons_append,
      validUtf8_cons_ascii (h b (List.mem_cons_self b xs)),
      ih fun c hc => h c (List.mem_cons_of_mem b hc)]

theorem validUtf8_of_ascii (xs : List Nat) (h : ∀ b ∈ xs, b < 128) :
    validUtf8 xs = true := by
  have := validUtf8_ascii_append xs [] h
  simpa using this

/-- The shape hypothesis on the suffix: empty, or starting with a byte that
is not a continuation byte. -/
def SplitOk (ys : List Nat) : Prop :=
  ys = [] ∨ ∃ h t, ys = h :: t ∧ isUtf8Cont h = false

theorem splitOk_head {ys : List Nat} {y : Nat} {t : List Nat}
    (hys : SplitOk ys) (he : ys = y :: t) : isUtf8Cont y = false := by
  rcases hys with rfl | ⟨h, t', rfl, hc⟩
  · cases he
  · cases he
    exact hc

theorem validUtf8_split : ∀ (n : Nat) (xs ys : List Nat), xs.length ≤ n →
    validUtf8 (xs ++ ys) = true → SplitOk ys →
    validUtf8 xs = true ∧ validUtf8 ys = true := by
  intro n
  induction n with
  | zero =>
    intro xs ys hlen hv _
    obtain rfl := List.length_eq_zero.mp (Nat.le_zero.mp hlen)
    exact ⟨rfl, by simpa using hv⟩
  | succ n ih =>
    intro xs ys hlen hv hys
    cases xs with
    | nil => exact ⟨rfl, by simpa using hv⟩
    | cons b xs' =>
      simp only [List.length_cons] at hlen
      rw [List.cons_append] at hv
      by_cases hb : b < 128
      · rw [validUtf8_cons_ascii hb] at hv
        obtain ⟨h1, h2⟩ := ih xs' ys (by omega) hv hys
        exact ⟨by rw [validUtf8_cons_ascii hb]; exact h1, h2⟩
      · by_cases h2r : 194 ≤ b ∧ b ≤ 223
        · cases xs' with
          | nil =>
            cases ys with
            | nil =>
              rw [List.nil_append] at hv
              exact absurd ((validUtf8_cons2 h2r).1 ▸ hv) (by simp)
            | cons y t =>
              rw [List.nil_append, (validUtf8_cons2 h2r).2 y t] at hv
              rw [Bool.and_eq_true] at hv
              obtain ⟨hc, _⟩ := hv
              rw [splitOk_head hys rfl] at hc
              cases hc
          | cons c xs2 =>
            simp only [List.length_cons] at hlen
            rw [List.cons_append, (validUtf8_cons2 h2r).2 c (xs2 ++ ys)] at hv
            rw [Bool.and_eq_true] at hv
            obtain ⟨hc, hv'⟩ := hv
            obtain ⟨ha, hy⟩ := ih xs2 ys (by omega) hv' hys
            refine ⟨?_, hy⟩
            rw [(validUtf8_cons2 h2r).2 c xs2]
            simp [hc, ha]
        · by_cases h3r : 224 ≤ b ∧ b ≤ 239
          · cases xs' with
            | nil =>
              cases ys with
              | nil =>
                rw [List.nil_append] at hv
                exact absurd ((validUtf8_cons3 h3r).1 ▸ hv) (by simp)
              | cons y t =>
                rw [List.nil_append] at hv
                cases t with
                | nil =>
                  exact absurd ((validUtf8_cons3 h3r).2.1 y ▸ hv) (by simp)
                | cons y2 t2 =>
                  rw [(validUtf8_cons3 h3r).2.2 y y2 t2] at hv
                  rw [Bool.and_eq_true] at hv
                  obtain ⟨hc, _⟩ := hv
                  rw [Bool.and_eq_true] at hc
                  obtain ⟨hc1, _⟩ := hc
                  have hyc := splitOk_head hys rfl
                  rw [utf8Cont3_cont hc1] at hyc
                  cases hyc
            | cons c1 xs2 =>
              simp only [List.length_cons] at hlen
              cases xs2 with
              | nil =>
                cases ys with
                | nil =>
                  simp only [List.cons_append, List.nil_append] at hv
                  exact absurd ((validUtf8_cons3 h3r).2.1 c1 ▸ hv) (by simp)
                | cons y t =>
                  simp only [List.cons_append, List.nil_append] at hv
                  rw [(validUtf8_cons3 h3r).2.2 c1 y t] at hv
                  rw [Bool.and_eq_true] at hv
                  obtain ⟨hc, _⟩ := hv
                  rw [Bool.and_eq_true] at hc
                  obtain ⟨_, hc2⟩ := hc
                  rw [splitOk_head hys rfl] at hc2
                  cases hc2
              | cons c2 xs3 =>
                simp only [List.length_cons] at hlen
                simp only [List.cons_append] at hv
                rw [(validUtf8_cons3 h3r).2.2 c1 c2 (xs3 ++ ys)] at hv
                rw [Bool.and_eq_true] at hv
                obtain ⟨hc, hv'⟩ := hv
                obtain ⟨ha, hy⟩ := ih xs3 ys (by omega) hv' hys
                refine ⟨?_, hy⟩
                rw [(validUtf8_cons3 h3r).2.2 c1 c2 xs3]
                simp only [hc, ha, Bool.true_and, Bool.and_true]
          · by_cases h4r : 240 ≤ b ∧ b ≤ 244
            · cases xs' with
              | nil =>
                cases ys with
                | nil =>
                  rw [List.nil_append] at hv
                  exact absurd ((validUtf8_cons4 h4r).1 ▸ hv) (by simp)
                | cons y t =>
                  rw [List.nil_append] at hv
                  cases t with
                  | nil =>
                    exact absurd ((validUtf8_cons4 h4r).2.1 y ▸ hv) (by simp)
                  | cons y2 t2 =>
                    cases t2 with
                    | nil =>
                      exact absurd ((validUtf8_cons4 h4r).2.2.1 y y2 ▸ hv)
                        (by simp)
                    | cons y3 t3 =>
                      rw [(validUtf8_cons4 h4r).2.2.2 y y2 y3 t3] at hv
                      rw [Bool.and_eq_true] at hv
                      obtain ⟨hc, _⟩ := hv
                      rw [Bool.and_eq_true] at hc
                      obtain ⟨hc', _⟩ := hc
                      rw [Bool.and_eq_true] at hc'
                      obtain ⟨hc1, _⟩ := hc'
                      have hyc := splitOk_head hys rfl
                      rw [utf8Cont4_cont hc1] at hyc
                      cases hyc
              | cons c1 xs2 =>
                simp only [List.length_cons] at hlen
                cases xs2 with
                | nil =>
                  cases ys with
                  | nil =>
                    simp only [List.cons_append, List.nil_append] at hv
                    exact absurd ((validUtf8_cons4 h4r).2.1 c1 ▸ hv) (by simp)
                  | cons y t =>
                    simp only [List.cons_append, List.nil_append] at hv
                    cases t with
                    | nil =>
                      exact absurd ((validUtf8_cons4 h4r).2.2.1 c1 y ▸ hv)
                        (by simp)
                    | cons y2 t2 =>
                      rw [(validUtf8_cons4 h4r).2.2.2 c1 y y2 t2] at hv
                      rw [Bool.and_eq_true] at hv
                      obtain ⟨hc, _⟩ := hv
                      rw [Bool.and_eq_true] at hc
                      obtain ⟨hc', _⟩ := hc
                      rw [Bool.and_eq_true] at hc'
                      obtain ⟨_, hc2⟩ := hc'
                      rw [splitOk_head hys rfl] at hc2
                      cases hc2
                | cons c2 xs3 =>
                  simp only [List.length_cons] at hlen
                  cases xs3 with
                  | nil =>
                    cases ys with
                    | nil =>
                      simp only [List.cons_append, List.nil_append] at hv
                      exact absurd ((validUtf8_cons4 h4r).2.2.1 c1 c2 ▸ hv)
                        (by simp)
                    | cons y t =>
                      simp only [List.cons_append, List.nil_append] at hv
                      rw [(validUtf8_cons4 h4r).2.2.2 c1 c2 y t] at hv
                      rw [Bool.and_eq_true] at hv
                      obtain ⟨hc, _⟩ := hv
                      rw [Bool.and_eq_true] at hc
                      obtain ⟨_, hc3⟩ := hc
                      rw [splitOk_head hys rfl] at hc3
                      cases hc3
                  | cons c3 xs4 =>
                    simp only [List.length_cons] at hlen
                    simp only [List.cons_append] at hv
                    rw [(validUtf8_cons4 h4r).2.2.2 c1 c2 c3 (xs4 ++ ys)] at hv
                    rw [Bool.and_eq_true] at hv
                    obtain ⟨hc, hv'⟩ := hv
                    obtain ⟨ha, hy⟩ := ih xs4 ys (by omega) hv' hys
                    refine ⟨?_, hy⟩
                    rw [(validUtf8_cons4 h4r).2.2.2 c1 c2 c3 xs4]
                    simp only [hc, ha, Bool.true_and, Bool.and_true]
            · rw [validUtf8_cons_bad (by omega) h2r h3r h4r] at hv
              cases hv

theorem chunkByLoop_rechunk (p : α → α → Bool) (a : α) (l : List α) :
    chunkBy p ((chunkByLoop p a l).2.flatten) = (chunkByLoop p a l).2 := by
  induction l generalizing a with
  | nil => rfl
  | cons b l ih =>
    simp only [chunkByLoop]
    by_cases hp : p a b = true
    · simp only [if_pos hp]
      exact ih b
    · simp only [if_neg hp]
      show chunkBy p
        (((chunkByLoop p b l).1 :: (chunkByLoop p b l).2).flatten) = _
      rw [List.flatten_cons, chunkByLoop_join]
      rfl

theorem isAsciiDigit_lt_128 {b : Nat} (h : isAsciiDigit b = true) : b < 128 := by
  unfold isAsciiDigit at h
  simp at h
  omega

theorem not_cont_of_digit {b : Nat} (h : isAsciiDigit b = true) :
    isUtf8Cont b = false := by
  unfold isAsciiDigit at h
  unfold isUtf8Cont
  simp at h ⊢
  omega

/-- Every chunk the tokenizer forms out of a valid UTF-8 byte string is
itself valid UTF-8: a chunk boundary always falls where the next byte is an
ASCII digit or where a digit run ends, never inside a multi-byte sequence. -/
theorem chunkBy_validUtf8 : ∀ (n : Nat) (l : List Nat), l.length ≤ n →
    validUtf8 l = true → ∀ c ∈ chunkBy sameDigitness l, validUtf8 c = true := by
  intro n
  induction n with
  | zero =>
    intro l hlen _ c hc
    obtain rfl := List.length_eq_zero.mp (Nat.le_zero.mp hlen)
    simp [chunkBy] at hc
  | succ n ih =>
    intro l hlen hv c hc
    cases l with
    | nil => simp [chunkBy] at hc
    | cons a l' =>
      obtain ⟨t, ht⟩ := chunkByLoop_fst_cons sameDigitness a l'
      have hjoin := chunkByLoop_join sameDigitness a l'
      have hv' : validUtf8 ((chunkByLoop sameDigitness a l').1 ++
          (chunkByLoop sameDigitness a l').2.flatten) = true := by
        rw [hjoin]
        exact hv
      have hsplit : validUtf8 (chunkByLoop sameDigitness a l').1 = true ∧
          validUtf8 (chunkByLoop sameDigitness a l').2.flatten = true := by
        by_cases hd : isAsciiDigit a = true
        · have hall : ∀ x ∈ (chunkByLoop sameDigitness a l').1, x < 128 := by
            intro x hx
            have hsame := (chunkByLoop_const isAsciiDigit a l').1 x hx
            exact isAsciiDigit_lt_128 (hsame.trans hd)
          refine ⟨validUtf8_of_ascii _ hall, ?_⟩
          rw [← validUtf8_ascii_append _ _ hall]
          exact hv'
        · have hok : SplitOk (chunkByLoop sameDigitness a l').2.flatten := by
            cases hrest : (chunkByLoop sameDigitness a l').2 with
            | nil => left; simp
            | cons c2 rest' =>
              have hc2ne : c2 ≠ [] :=
                (chunkByLoop_ne_nil sameDigitness a l').2 c2
                  (hrest ▸ List.mem_cons_self c2 rest')
              obtain ⟨y, c2t, rfl⟩ := List.exists_cons_of_ne_nil hc2ne
              right
              refine ⟨y, c2t ++ rest'.flatten, by simp, ?_⟩
              have hchain : List.Chain'
                  (fun c d => isAsciiDigit (c.headD 0) ≠ isAsciiDigit (d.headD 0))
                  ((chunkByLoop sameDigitness a l').1 ::
                    (chunkByLoop sameDigitness a l').2) :=
                chunkByLoop_chain isAsciiDigit a l'
              rw [hrest] at hchain
              have hlink := (List.chain'_cons.mp hchain).1
              rw [ht] at hlink
              simp only [List.headD_cons] at hlink
              have hy : isAsciiDigit y = true := by
                cases hyd : isAsciiDigit y with
                | true => rfl
                | false =>
                  exact absurd (by rw [hyd]; simp [Bool.not_eq_true] at hd ⊢; exact hd) hlink
              exact not_cont_of_digit hy
          exact validUtf8_split (chunkByLoop sameDigitness a l').1.length _ _
            le_rfl hv' hok
      rcases List.mem_cons.mp hc with rfl | hcrest
      · exact hsplit.1
      · have hre := chunkByLoop_rechunk sameDigitness a l'
        have hlenflat : (chunkByLoop sameDigitness a l').2.flatten.length ≤ n := by
          have := congrArg List.length hjoin
          simp only [List.length_append, List.length_cons] at this
          rw [ht] at this
          simp only [List.length_cons] at this hlen
          omega
        refine ih _ hlenflat hsplit.2 c ?_
        rw [hre]
        exact hcrest

/-- Prepending the UTF-8 encoding of any scalar value preserves validity. -/
theorem validUtf8_encodeChar (c : Char) (l : List Nat)
    (hl : validUtf8 l = true) : validUtf8 (utf8EncodeChar c ++ l) = true := by
  have hs : c.toNat < 55296 ∨ (57343 < c.toNat ∧ c.toNat < 1114112) := by
    have h := c.valid
    unfold UInt32.isValidChar at h
    unfold Nat.isValidChar at h
    exact h
  unfold utf8EncodeChar
  by_cases h1 : c.toNat < 128
  · rw [if_pos h1]
    show validUtf8 (c.toNat :: l) = true
    rw [validUtf8_cons_ascii h1]
    exact hl
  · rw [if_neg h1]
    by_cases h2 : c.toNat < 2048
    · rw [if_pos h2]
      show validUtf8 ((192 + c.toNat / 64) :: (128 + c.toNat % 64) :: l) = true
      rw [(validUtf8_cons2 (by omega)).2]
      rw [hl, Bool.and_true]
      unfold isUtf8Cont
      simp
      omega
    · rw [if_neg h2]
      by_cases h3 : c.toNat < 65536
      · rw [if_pos h3]
        show validUtf8 ((224 + c.toNat / 4096) :: (128 + c.toNat / 64 % 64) ::
          (128 + c.toNat % 64) :: l) = true
        rw [(validUtf8_cons3 (by omega)).2.2]
        rw [hl, Bool.and_true]
        unfold utf8Cont3 isUtf8Cont
        split_ifs with ha hb <;> simp <;> omega
      · rw [if_neg h3]
        show validUtf8 ((240 + c.toNat / 262144) :: (128 + c.toNat / 4096 % 64) ::
          (128 + c.toNat / 64 % 64) :: (128 + c.toNat % 64) :: l) = true
        rw [(validUtf8_cons4 (by omega)).2.2.2]
        rw [hl, Bool.and_true]
        unfold utf8Cont4 isUtf8Cont
        split_ifs with ha hb <;> simp <;> omega

/-- The UTF-8 bytes of any string are valid — every Rust `&str` satisfies the
precondition of the chunk-validity lemma. -/
theorem validUtf8_strBytes (s : String) : validUtf8 (strBytes s) = true := by
  unfold strBytes
  induction s.data with
  | nil => rfl
  | cons c cs ih =>
    rw [List.map_cons, List.flatten_cons]
    exact validUtf8_encodeChar c _ ih

/-- The fallible check inside `DigitStr::new`: panics (here `none`) unless
every byte is an ASCII digit. -/
def DigitStr.new (text : List Nat) : Option (List Nat) :=
  if text.all isAsciiDigit then some text else none

/-- The fallible internals of the per-chunk conversion in `Version::from`:
`str::from_utf8(chunk).unwrap()` (the UTF-8 re-validation), the
`chunk.as_bytes()[0]` indexing, and the `DigitStr::new` all-digits check,
each modelled as `Option`. -/
def tryPartOfChunk (chunk : List Nat) : Option VersionPart :=
  if validUtf8 chunk = true then
    match chunk.head? with
    | none => none
    | some b =>
      if isAsciiDigit b then (DigitStr.new chunk).map .Num
      else some (.Str chunk)
  else none

/-- Collecting the per-chunk conversions, failing if any chunk fails. -/
def collectParts : List (List Nat) → Option (List VersionPart)
  | [] => some []
  | c :: cs =>
    match tryPartOfChunk c, collectParts cs with
    | some p, some ps => some (p :: ps)
    | _, _ => none

/-- `Version::from` with all its internal partiality made explicit. -/
def Version.tryFrom (text : List Nat) : Option Version :=
  collectParts (chunkBy sameDigitness text)

theorem tryPartOfChunk_ok (c : List Nat) (hval : validUtf8 c = true)
    (hne : c ≠ [])
    (hdig : isAsciiDigit (c.headD 0) = true → ∀ b ∈ c, isAsciiDigit b = true) :
    tryPartOfChunk c = some (partOfChunk c) := by
  unfold tryPartOfChunk partOfChunk
  rw [if_pos hval]
  cases c with
  | nil => exact absurd rfl hne
  | cons b t =>
    show (if isAsciiDigit b then (DigitStr.new (b :: t)).map VersionPart.Num
      else some (.Str (b :: t))) = _
    simp only [List.headD_cons]
    by_cases hb : isAsciiDigit b = true
    · rw [if_pos hb, if_pos hb]
      unfold DigitStr.new
      rw [if_pos (List.all_eq_true.mpr fun x hx => hdig (by simp [hb]) x hx)]
      rfl
    · rw [if_neg hb, if_neg hb]

theorem collectParts_all (cs : List (List Nat))
    (h : ∀ c ∈ cs, tryPartOfChunk c = some (partOfChunk c)) :
    collectParts cs = some (cs.map partOfChunk) := by
  induction cs with
  | nil => rfl
  | cons c cs ih =>
    unfold collectParts
    rw [h c (List.mem_cons_self c cs), ih fun d hd => h d (List.mem_cons_of_mem c hd)]
    rfl

/-- C6. Tokenization is total: for every input string — including the empty
string and strings with non-ASCII characters, whose bytes (≥ 128) are
non-digits merged into literal chunks — the `Option`-modelled internals of
`Version::from` (per-chunk UTF-8 re-validation, first-byte indexing, and the
all-digits check of `DigitStr::new`) all succeed, and the result is exactly
the total tokenizer's output. -/
theorem c6_tokenize_total (s : String) :
    Version.tryFrom (strBytes s) = some (Version.fromText (strBytes s)) := by
  unfold Version.tryFrom Version.fromText
  apply collectParts_all
  intro c hc
  apply tryPartOfChunk_ok
  · exact chunkBy_validUtf8 (strBytes s).length (strBytes s) le_rfl
      (validUtf8_strBytes s) c hc
  · exact chunkBy_ne_nil sameDigitness (strBytes s) c hc
  · intro hd b hb
    exact ((chunkBy_const isAsciiDigit (strBytes s) c hc b hb).trans hd)

/-! ## Claim C9: the bounded fan-out scheduler (`main`) -/

/-- Task lifecycle inside the fan-out scheduler. -/
inductive TaskStatus where
  | pending
  | running
  | done
deriving DecidableEq, Repr

/-- Scheduler state: one status and one result slot per image (by input
position), plus the semaphore's available permits. -/
structure FanState (ρ : Type) where
  status : List TaskStatus
  results : List (Option ρ)
  avail : Nat

def countStat (x : TaskStatus) : List TaskStatus → Nat
  | [] => 0
  | t :: ts => (if t = x then 1 else 0) + countStat x ts

theorem countStat_set (x a : TaskStatus) :
    ∀ (l : List TaskStatus) (i : Nat), i < l.length →
    countStat x (l.set i a) + (if l.getD i .pending = x then 1 else 0) =
      countStat x l + (if a = x then 1 else 0) := by
  intro l
  induction l with
  | nil => intro i hi; simp at hi
  | cons t ts ih =>
    intro i hi
    cases i with
    | zero =>
      simp only [List.set_cons_zero, countStat, List.getD_cons_zero]
      omega
    | succ i =>
      simp only [List.set_cons_succ, countStat, List.getD_cons_succ]
      have := ih i (by simpa using Nat.lt_of_succ_lt_succ hi)
      omega

theorem countStat_pos (x : TaskStatus) (l : List TaskStatus)
    (h : 0 < countStat x l) :
    ∃ i, i < l.length ∧ l.getD i .pending = x := by
  induction l with
  | nil => simp [countStat] at h
  | cons t ts ih =>
    by_cases ht : t = x
    · exact ⟨0, by simp, by simpa using ht⟩
    · simp only [countStat, if_neg ht, Nat.zero_add] at h
      obtain ⟨i, hi, hx⟩ := ih h
      exact ⟨i + 1, by simpa using Nat.succ_lt_succ hi, by simpa using hx⟩

theorem countStat_replicate (x p : TaskStatus) (n : Nat) (h : p ≠ x) :
    countStat x (List.replicate n p) = 0 := by
  induction n with
  | zero => rfl
  | succ n ih => simp [List.replicate_succ, countStat, h, ih]

theorem getD_set_self {α : Type} (l : List α) (i : Nat) (hi : i < l.length)
    (a d : α) : (l.set i a).getD i d = a := by
  induction l generalizing i with
  | nil => simp at hi
  | cons t ts ih =>
    cases i with
    | zero => rfl
    | succ i => simpa using ih i (by simpa using Nat.lt_of_succ_lt_succ hi) 

theorem getD_set_ne {α : Type} (l : List α) {i j : Nat} (hij : i ≠ j)
    (a d : α) : (l.set i a).getD j d = l.getD j d := by
  induction l generalizing i j with
  | nil => rfl
  | cons t ts ih =>
    cases i with
    | zero =>
      cases j with
      | zero => exact absurd rfl hij
      | succ j => rfl
    | succ i =>
      cases j with
      | zero => rfl
      | succ j => simpa using ih (fun e => hij (by rw [e])) 

theorem getD_replicate {α : Type} (n i : Nat) (hi : i < n) (a d : α) :
    (List.replicate n a).getD i d = a := by
  induction n generalizing i with
  | zero => simp at hi
  | succ n ih =>
    cases i with
    | zero => rfl
    | succ i => simpa [List.replicate_succ] using ih i (by omega)

/-- One scheduler transition, parameterized by the concurrency bound `C` and
the fixed per-task outcome function `f` (task `i`'s selection result, which
does not depend on any other task): a pending task may start when a permit is
available (taking one), and a running task may finish at any time (recording
its own outcome in its own slot and releasing its permit). Completion order
is entirely nondeterministic. -/
inductive FanStep (C : Nat) {ρ : Type} (f : Nat → ρ) :
    FanState ρ → FanState ρ → Prop where
  | start (s : FanState ρ) (i : Nat) (hi : i < s.status.length)
      (hp : s.status.getD i .pending = .pending) (ha : 0 < s.avail) :
      FanStep C f s ⟨s.status.set i .running, s.results, s.avail - 1⟩
  | finish (s : FanState ρ) (i : Nat) (hi : i < s.status.length)
      (hr : s.status.getD i .pending = .running) :
      FanStep C f s
        ⟨s.status.set i .done, s.results.set i (some (f i)), s.avail + 1⟩

/-- Initial scheduler state for `n` images and `C` permits. -/
def FanInit (ρ : Type) (n C : Nat) : FanState ρ :=
  ⟨List.replicate n .pending, List.replicate n none, C⟩

/-- States reachable from the initial state. -/
def FanReachable (C : Nat) {ρ : Type} (f : Nat → ρ) (n : Nat)
    (s : FanState ρ) : Prop :=
  Relation.ReflTransGen (FanStep C f) (FanInit ρ n C) s

/-- The scheduler invariant: sizes are fixed at `n`, permits plus running
tasks account exactly for `C`, and each result slot holds its own task's
outcome exactly when that task is done. -/
def FanInv (C : Nat) {ρ : Type} (f : Nat → ρ) (n : Nat)
    (s : FanState ρ) : Prop :=
  s.status.length = n ∧ s.results.length = n ∧
  s.avail + countStat .running s.status = C ∧
  ∀ i, i < n →
    (s.status.getD i .pending = .done → s.results.getD i none = some (f i)) ∧
    (s.status.getD i .pending ≠ .done → s.results.getD i none = none)

theorem fanInv_init (C : Nat) {ρ : Type} (f : Nat → ρ) (n : Nat) :
    FanInv C f n (FanInit ρ n C) := by
  refine ⟨by simp [FanInit], by simp [FanInit], ?_, ?_⟩
  · simp [FanInit, countStat_replicate .running .pending n (by simp)]
  · intro i hi
    constructor
    · intro hdone
      rw [show (FanInit ρ n C).status = List.replicate n .pending from rfl,
        getD_replicate n i hi] at hdone
      cases hdone
    · intro _
      rw [show (FanInit ρ n C).results = List.replicate n none from rfl,
        getD_replicate n i hi]

theorem fanInv_step (C : Nat) {ρ : Type} (f : Nat → ρ) (n : Nat)
    {s s' : FanState ρ} (hinv : FanInv C f n s) (hstep : FanStep C f s s') :
    FanInv C f n s' := by
  obtain ⟨hsl, hrl, hcnt, hidx⟩ := hinv
  cases hstep with
  | start i hi hp ha =>
    refine ⟨by simpa using hsl, hrl, ?_, ?_⟩
    · have hc := countStat_set .running .running s.status i hi
      rw [hp, if_neg (by decide : ¬(TaskStatus.pending = TaskStatus.running)),
        if_pos rfl] at hc
      show s.avail - 1 + countStat .running (s.status.set i .running) = C
      omega
    · intro j hj
      by_cases hij : i = j
      · subst hij
        constructor
        · intro hdone
          rw [show (⟨s.status.set i .running, s.results, s.avail - 1⟩ :
            FanState ρ).status = s.status.set i .running from rfl,
            getD_set_self s.status i hi] at hdone
          cases hdone
        · intro _
          exact (hidx i (by omega)).2 (by rw [hp]; simp)
      · constructor
        · intro hdone
          rw [show (⟨s.status.set i .running, s.results, s.avail - 1⟩ :
            FanState ρ).status = s.status.set i .running from rfl,
            getD_set_ne s.status hij] at hdone
          exact (hidx j hj).1 hdone
        · intro hnd
          rw [show (⟨s.status.set i .running, s.results, s.avail - 1⟩ :
            FanState ρ).status = s.status.set i .running from rfl,
            getD_set_ne s.status hij] at hnd
          exact (hidx j hj).2 hnd
  | finish i hi hr =>
    refine ⟨by simpa using hsl, by simpa using hrl, ?_, ?_⟩
    · have hc := countStat_set .running .done s.status i hi
      rw [hr, if_pos rfl,
        if_neg (by decide : ¬(TaskStatus.done = TaskStatus.running))] at hc
      show s.avail + 1 + countStat .running (s.status.set i .done) = C
      omega
    · intro j hj
      by_cases hij : i = j
      · subst hij
        constructor
        · intro _
          rw [show (⟨s.status.set i .done, s.results.set i (some (f i)),
            s.avail + 1⟩ : FanState ρ).results =
            s.results.set i (some (f i)) from rfl,
            getD_set_self s.results i (by omega)]
        · intro hnd
          rw [show (⟨s.status.set i .done, s.results.set i (some (f i)),
            s.avail + 1⟩ : FanState ρ).status = s.status.set i .done from rfl,
            getD_set_self s.status i hi] at hnd
          exact absurd rfl hnd
      · constructor
        · intro hdone
          rw [show (⟨s.status.set i .done, s.results.set i (some (f i)),
            s.avail + 1⟩ : FanState ρ).status = s.status.set i .done from rfl,
            getD_set_ne s.status hij] at hdone
          rw [show (⟨s.status.set i .done, s.results.set i (some (f i)),
            s.avail + 1⟩ : FanState ρ).results =
            s.results.set i (some (f i)) from rfl,
            getD_set_ne s.results hij]
          exact (hidx j hj).1 hdone
        · intro hnd
          rw [show (⟨s.status.set i .done, s.results.set i (some (f i)),
            s.avail + 1⟩ : FanState ρ).status = s.status.set i .done from rfl,
            getD_set_ne s.status hij] at hnd
          rw [show (⟨s.status.set i .done, s.results.set i (some (f i)),
            s.avail + 1⟩ : FanState ρ).results =
            s.results.set i (some (f i)) from rfl,
            getD_set_ne s.results hij]
          exact (hidx j hj).2 hnd

theorem fanInv_reachable (C : Nat) {ρ : Type} (f : Nat → ρ) (n : Nat)
    {s : FanState ρ} (h : FanReachable C f n s) : FanInv C f n s := by
  induction h with
  | refl => exact fanInv_init C f n
  | tail _ hstep ih => exact fanInv_step C f n ih hstep

/-- C9. The fan-out scheduler, modelled as a transition system over per-task
statuses, per-slot results and a semaphore counter, with the per-task outcome
function `f` fixed in advance (task `i`'s outcome never depends on another
task): in every reachable state at most `C` tasks run simultaneously; there
are always exactly `n` status and result slots; in every terminal (all-done)
state slot `i` holds exactly outcome `f i` — so the output list is in input
order and identical for every completion order, and one task's failure
outcome never alters another's; with a positive bound the scheduler can
always step until all tasks are done; and every step decreases a finite
measure, so every maximal run ends with all `n` outcomes delivered. -/
theorem c9_fanout_scheduler :
    (∀ (ρ : Type) (C n : Nat) (f : Nat → ρ) (s : FanState ρ),
      FanReachable C f n s → countStat .running s.status ≤ C) ∧
    (∀ (ρ : Type) (C n : Nat) (f : Nat → ρ) (s : FanState ρ),
      FanReachable C f n s → s.status.length = n ∧ s.results.length = n) ∧
    (∀ (ρ : Type) (C n : Nat) (f : Nat → ρ) (s : FanState ρ),
      FanReachable C f n s →
      (∀ i, i < n → s.status.getD i .pending = .done) →
      ∀ i, i < n → s.results.getD i none = some (f i)) ∧
    (∀ (ρ : Type) (C n : Nat) (f : Nat → ρ) (s : FanState ρ),
      FanReachable C f n s → 1 ≤ C →
      (∃ i, i < n ∧ s.status.getD i .pending ≠ .done) →
      ∃ s', FanStep C f s s') ∧
    (∀ (ρ : Type) (C : Nat) (f : Nat → ρ) (s s' : FanState ρ),
      FanStep C f s s' →
      2 * countStat .pending s'.status + countStat .running s'.status <
        2 * countStat .pending s.status + countStat .running s.status) := by
  refine ⟨?_, ?_, ?_, ?_, ?_⟩
  · intro ρ C n f s hr
    obtain ⟨_, _, hcnt, _⟩ := fanInv_reachable C f n hr
    omega
  · intro ρ C n f s hr
    obtain ⟨hsl, hrl, _, _⟩ := fanInv_reachable C f n hr
    exact ⟨hsl, hrl⟩
  · intro ρ C n f s hr hterm i hi
    obtain ⟨_, _, _, hidx⟩ := fanInv_reachable C f n hr
    exact (hidx i hi).1 (hterm i hi)
  · intro ρ C n f s hr hC ⟨i, hi, hnd⟩
    obtain ⟨hsl, hrl, hcnt, hidx⟩ := fanInv_reachable C f n hr
    have hi' : i < s.status.length := by omega
    cases hstat : s.status.getD i .pending with
    | pending =>
      by_cases ha : 0 < s.avail
      · exact ⟨_, FanStep.start s i hi' hstat ha⟩
      · have hrun : 0 < countStat .running s.status := by omega
        obtain ⟨j, hj, hjr⟩ := countStat_pos .running s.status hrun
        exact ⟨_, FanStep.finish s j hj hjr⟩
    | running => exact ⟨_, FanStep.finish s i hi' hstat⟩
    | done => exact absurd hstat hnd
  · intro ρ C f s s' hstep
    cases hstep with
    | start i hi hp ha =>
      have hcp := countStat_set .pending .running s.status i hi
      rw [hp, if_pos rfl,
        if_neg (by decide : ¬(TaskStatus.running = TaskStatus.pending))] at hcp
      have hcr := countStat_set .running .running s.status i hi
      rw [hp, if_neg (by decide : ¬(TaskStatus.pending = TaskStatus.running)),
        if_pos rfl] at hcr
      show 2 * countStat .pending (s.status.set i .running) +
        countStat .running (s.status.set i .running) < _
      omega
    | finish i hi hr =>
      have hcp := countStat_set .pending .done s.status i hi
      rw [hr, if_neg (by decide : ¬(TaskStatus.running = TaskStatus.pending)),
        if_neg (by decide : ¬(TaskStatus.done = TaskStatus.pending))] at hcp
      have hcr := countStat_set .running .done s.status i hi
      rw [hr, if_pos rfl,
        if_neg (by decide : ¬(TaskStatus.done = TaskStatus.running))] at hcr
      show 2 * countStat .pending (s.status.set i .done) +
        countStat .running (s.status.set i .done) < _
      omega


/-- Witness for C9 at a concrete instance: two images, bound 1, outcomes
taken from the real selector; at the initial state the bound holds and a
step exists. -/
theorem c9_witness :
    countStat .running
      (FanInit (Except (TagError Unit) (List Nat)) 2 1).status ≤ 1 ∧
    ∃ s', FanStep 1 (fun _ => selectCore Unit (strBytes "v1") [strBytes "v1"])
      (FanInit (Except (TagError Unit) (List Nat)) 2 1) s' :=
  ⟨c9_fanout_scheduler.1 (Except (TagError Unit) (List Nat)) 1 2
      (fun _ => selectCore Unit (strBytes "v1") [strBytes "v1"]) _
      Relation.ReflTransGen.refl,
    c9_fanout_scheduler.2.2.2.1 (Except (TagError Unit) (List Nat)) 1 2
      (fun _ => selectCore Unit (strBytes "v1") [strBytes "v1"]) _
      Relation.ReflTransGen.refl (by decide)
      ⟨0, by decide, by decide⟩⟩
